import Mathlib

/-!
Verification of the arak event indexer core against its specification.

This file gives a shallow embedding, in Lean, of the core data structures and
operations of the arak blockchain-log indexer (a Rust program):

- the chain window (`src/indexer/chain.rs`),
- the bootstrap loop exit condition of the indexer (`src/indexer/mod.rs`),
- identifier sanitization and the event-to-tables schema planner
  (`src/database/event_to_tables.rs`),
- the descriptor and value visitors (`src/database/event_visitor.rs`),
- the SQLite storage backend state machine (`src/database/sqlite/mod.rs`),

and proves functional-correctness, error-handling and algebraic properties of
those definitions.  Rust machine integers are modelled as `Nat` with explicit
bounds checks where the code performs checked conversions; fallible Rust
functions returning `anyhow::Result` are modelled as `Except String`; in-place
mutation is modelled by explicit state passing.
-/

namespace Arak

/-! ## Chain window (src/indexer/chain.rs)

The Rust `Chain` owns a `VecDeque<Digest>` whose front is the head of the local
chain and whose back is the finalized block, together with the finalized block
number.  Digests are only ever compared for equality, so a block hash is
modelled as a `Nat`.  The deque is modelled as a list whose head is the deque
front; `VecDeque::truncate` keeps the front elements, i.e. `List.take`. -/

/-- Local blockchain state: `hashes` (front first) and the finalized number. -/
structure Chain where
  hashes : List Nat
  finalized : Nat
  deriving DecidableEq, Repr

/-- Result of appending a block to the chain window (`enum Append`). -/
inductive Append where
  | ok
  | reorg
  deriving DecidableEq, Repr

/-- Next block number of the chain: `finalized + hashes.len()`. -/
def Chain.next (c : Chain) : Nat :=
  c.finalized + c.hashes.length

/-- Model of `Chain::append`.  The Rust code reads `self.hashes[0]` (which
panics on an empty deque — never reachable from `Chain::new`), then either
pushes the new hash to the front, pops the front on a mismatch when more than
one hash is stored, or fails with "reorg past finalized block".  Errors are
returned before any mutation, so the caller's state is unchanged on error. -/
def Chain.append (c : Chain) (hash parent : Nat) : Except String (Append × Chain) :=
  match c.hashes with
  | [] => .error "index out of bounds"
  | front :: rest =>
    if parent ≠ front then
      if c.hashes.length > 1 then
        .ok (.reorg, { c with hashes := rest })
      else
        .error "reorg past finalized block"
    else
      .ok (.ok, { c with hashes := hash :: c.hashes })

/-- Model of `Chain::finalize`: requires `finalized ≤ new < next()`, keeps the
first `next() - new` hashes of the deque, records the new finalized number and
returns the old one.  The range check happens before any mutation. -/
def Chain.finalize (c : Chain) (newFinalized : Nat) : Except String (Nat × Chain) :=
  if c.finalized ≤ newFinalized ∧ newFinalized < c.next then
    .ok (c.finalized,
      { hashes := c.hashes.take (c.next - newFinalized), finalized := newFinalized })
  else
    .error "invalid finalized block"

/-! ## Indexer bootstrap exit condition (src/indexer/mod.rs)

`Indexer::init_blocks` computes, per adapter, `max(adapter.start,
watermark.indexed + 1)`; the bootstrap loop in `Indexer::init` then computes
`earliest = init.min().unwrap_or(finalized.number)` and exits, returning the
finalized block, exactly when `finalized.number <= earliest`. -/

/-- Per-adapter first block to initialize from (`Indexer::init_blocks`). -/
def initBlock (start indexed : Nat) : Nat :=
  max start (indexed + 1)

/-- The `earliest` initialization block of the bootstrap loop:
`init.iter().copied().min().unwrap_or(finalized.number)`. -/
def initEarliest (finalizedNumber : Nat) (init : List Nat) : Nat :=
  init.min?.getD finalizedNumber

/-- The bootstrap loop's exit test: `finalized.number.as_u64() <= earliest`
(on `true` the loop returns the finalized block; on `false` it fetches one
more page of history and repeats). -/
def initLoopExits (finalizedNumber : Nat) (init : List Nat) : Bool :=
  decide (finalizedNumber ≤ initEarliest finalizedNumber init)

/-! ### Chain window theorems -/

/-- Helper: the exit test holds iff no adapter's init block is below the
finalized number (note: not strictly above it). -/
theorem initLoopExits_iff (f : Nat) (init : List Nat) :
    initLoopExits f init = true ↔ ∀ b ∈ init, f ≤ b := by
  unfold initLoopExits initEarliest
  cases hm : init.min? with
  | none =>
    have : init = [] := by
      cases init with
      | nil => rfl
      | cons x xs => simp [List.min?_cons] at hm
    simp [this]
  | some m =>
    obtain ⟨hmem, hle⟩ := List.min?_eq_some_iff'.mp hm
    simp only [Option.getD_some, decide_eq_true_eq]
    constructor
    · intro h b hb
      exact le_trans h (hle b hb)
    · intro h
      exact h m hmem

/-- C1: with a non-empty hash deque, `Chain::append(hash, parent_hash)` pushes
`hash` to the front and returns `Ok` when `parent_hash` matches the front hash
(so `next()` grows by one); otherwise, with more than one stored hash it pops
the front and returns `Reorg` (so `next()` shrinks by one); otherwise (exactly
one stored hash) it fails with the "reorg past finalized" error, leaving the
state unchanged (the model returns the error before producing any new state,
as the Rust code returns before mutating). -/
theorem chain_append_spec (c : Chain) (hash parent front : Nat) (rest : List Nat)
    (hh : c.hashes = front :: rest) :
    (parent = front →
      c.append hash parent = .ok (.ok, { c with hashes := hash :: c.hashes }) ∧
      ({ c with hashes := hash :: c.hashes } : Chain).next = c.next + 1) ∧
    (parent ≠ front → rest ≠ [] →
      c.append hash parent = .ok (.reorg, { c with hashes := rest }) ∧
      ({ c with hashes := rest } : Chain).next + 1 = c.next) ∧
    (parent ≠ front → rest = [] →
      c.append hash parent = .error "reorg past finalized block") := by
  refine ⟨fun hp => ?_, fun hp hr => ?_, fun hp hr => ?_⟩
  · constructor
    · simp [Chain.append, hh, hp]
    · simp [Chain.next, hh]
      omega
  · constructor
    · simp only [Chain.append, hh, List.length_cons]
      rw [if_pos hp, if_pos (by cases rest with
        | nil => exact absurd rfl hr
        | cons x xs => simp)]
    · simp [Chain.next, hh]
      omega
  · subst hr
    simp only [Chain.append, hh, List.length_cons, List.length_nil]
    rw [if_pos hp, if_neg (by omega)]

/-- Witness for C1 (Ok branch at a concrete input). -/
theorem chain_append_spec_witness :
    (Chain.mk [5] 1).append 7 5 = .ok (.ok, Chain.mk [7, 5] 1) :=
  ((chain_append_spec (Chain.mk [5] 1) 7 5 5 [] rfl).1 rfl).1

/-- C6: `Chain::finalize(new_finalized)` fails with "invalid finalized block"
(before any mutation) unless `finalized ≤ new_finalized < next()`; on success
it returns the previous finalized number, records `new_finalized`, and keeps
exactly `next() - new_finalized` hashes, so `next()` is unchanged. -/
theorem chain_finalize_spec (c : Chain) (newFin : Nat) :
    (¬ (c.finalized ≤ newFin ∧ newFin < c.next) →
      c.finalize newFin = .error "invalid finalized block") ∧
    (c.finalized ≤ newFin → newFin < c.next →
      ∃ c', c.finalize newFin = .ok (c.finalized, c') ∧
        c'.finalized = newFin ∧
        c'.hashes.length = c.next - newFin ∧
        c'.next = c.next) := by
  constructor
  · intro h
    simp [Chain.finalize, h]
  · intro h1 h2
    refine ⟨{ hashes := c.hashes.take (c.next - newFin), finalized := newFin },
      by simp [Chain.finalize, h1, h2], rfl, ?_, ?_⟩
    · have hn : newFin < c.finalized + c.hashes.length := h2
      simp only [List.length_take, Chain.next]
      omega
    · have hn : newFin < c.finalized + c.hashes.length := h2
      simp only [Chain.next, List.length_take]
      omega

/-- Witness for C6 at a concrete input. -/
theorem chain_finalize_spec_witness :
    ∃ c', (Chain.mk [30, 20, 10] 1).finalize 2 = .ok (1, c') ∧
      c'.finalized = 2 ∧
      c'.hashes.length = (Chain.mk [30, 20, 10] 1).next - 2 ∧
      c'.next = (Chain.mk [30, 20, 10] 1).next :=
  (chain_finalize_spec (Chain.mk [30, 20, 10] 1) 2).2 (by decide) (by decide)

/-- C4 (code evidence): with a single adapter whose init block equals the
finalized number (start 5, indexed watermark 0, finalized block 5), the
bootstrap loop's exit test is already true even though the adapter's init
block is not strictly greater than the finalized number, so block 5 is never
fetched by the bootstrap loop. -/
theorem init_exit_at_equal_bound :
    initLoopExits 5 [initBlock 5 0] = true ∧ ¬ (∀ b ∈ [initBlock 5 0], 5 < b) := by
  constructor
  · decide
  · decide

/-! ## Identifier sanitization (src/database/event_to_tables.rs)

`sanitize_name_` keeps ASCII alphanumerics and underscore, prepends an
underscore when the result would be empty or start with a disallowed
character, and appends an underscore when the result is (case-insensitively) a
reserved SQL keyword.  `sanitize_name` is the same function; the Rust wrapper
asserts idempotence, which is proved below.  Strings are modelled as
`List Char`. -/

/-- The closure `is_allowed_character`: ASCII alphanumeric or underscore
(`c.is_ascii_alphanumeric() || c == '_'`). -/
def is_allowed_character (c : Char) : Bool :=
  (97 ≤ c.toNat && c.toNat ≤ 122) || (65 ≤ c.toNat && c.toNat ≤ 90) ||
    (48 ≤ c.toNat && c.toNat ≤ 57) || c.toNat == 95

/-- Rust `char::to_ascii_lowercase`: shift an ASCII uppercase letter down by
32 code points, leave any other character alone. -/
def to_ascii_lowercase (c : Char) : Char :=
  if 65 ≤ c.toNat ∧ c.toNat ≤ 90 then Char.ofNat (c.toNat + 32) else c

/-- Rust `str::to_ascii_lowercase` over the modelled string. -/
def lowercase (s : List Char) : List Char :=
  s.map to_ascii_lowercase

/-- Modelled from the spec: the fixed list of reserved SQL keywords used by
the sanitizer (`database/keywords.rs` is not part of the given sources; the
spec fixes only that it is a list of reserved SQL keywords compared
case-insensitively).  The standard SQL/SQLite reserved words, lowercase. -/
def KEYWORDS : List String :=
  ["abort", "action", "add", "after", "all", "alter", "always", "analyze",
   "and", "as", "asc", "attach", "autoincrement", "before", "begin",
   "between", "by", "cascade", "case", "cast", "check", "collate", "column",
   "commit", "conflict", "constraint", "create", "cross", "current",
   "current_date", "current_time", "current_timestamp", "database", "default",
   "deferrable", "deferred", "delete", "desc", "detach", "distinct", "do",
   "drop", "each", "else", "end", "escape", "except", "exclude", "exclusive",
   "exists", "explain", "fail", "filter", "first", "following", "for",
   "foreign", "from", "full", "generated", "glob", "group", "groups",
   "having", "if", "ignore", "immediate", "in", "index", "indexed",
   "initially", "inner", "insert", "instead", "intersect", "into", "is",
   "isnull", "join", "key", "last", "left", "like", "limit", "match",
   "materialized", "natural", "no", "not", "nothing", "notnull", "null",
   "nulls", "of", "offset", "on", "or", "order", "others", "outer", "over",
   "partition", "plan", "pragma", "preceding", "primary", "query", "raise",
   "range", "recursive", "references", "regexp", "reindex", "release",
   "rename", "replace", "restrict", "returning", "right", "rollback", "row",
   "rows", "savepoint", "select", "set", "table", "temp", "temporary",
   "then", "ties", "to", "transaction", "trigger", "unbounded", "union",
   "unique", "update", "using", "vacuum", "values", "view", "virtual",
   "when", "where", "window", "with", "without"]

/-- The closure `is_keyword`: lowercase the candidate and compare it against
every keyword. -/
def is_keyword (s : List Char) : Bool :=
  KEYWORDS.any fun w => w.toList == lowercase s

/-- The middle step of `sanitize_name_`: `if result.is_empty() ||
!is_allowed_character(result.chars().next().unwrap()) { result.insert(0, '_') }`. -/
def prependUnderscore (l : List Char) : List Char :=
  match l with
  | [] => ['_']
  | c :: cs => if is_allowed_character c then c :: cs else '_' :: c :: cs

/-- Model of `sanitize_name_`: filter to allowed characters, prepend an
underscore when empty or starting with a disallowed character, append an
underscore when the result is a keyword. -/
def sanitize_name_ (name : List Char) : List Char :=
  let result := prependUnderscore (name.filter is_allowed_character)
  if is_keyword result then result ++ ['_'] else result

/-- Model of `sanitize_name`: the Rust wrapper calls `sanitize_name_`,
asserts that a second application is the identity, and returns the result.
The assertion is the content of theorem `sanitize_name_idempotent`. -/
def sanitize_name (name : List Char) : List Char :=
  sanitize_name_ name

/-! ### Sanitization theorems -/

/-- Every character produced by the prepend step is an underscore or comes
from the input. -/
theorem prependUnderscore_mem (l : List Char) :
    ∀ x ∈ prependUnderscore l, x = '_' ∨ x ∈ l := by
  intro x hx
  cases l with
  | nil =>
    simp [prependUnderscore] at hx
    exact .inl hx
  | cons a as =>
    simp only [prependUnderscore] at hx
    by_cases ha : is_allowed_character a = true
    · rw [if_pos ha] at hx
      exact .inr hx
    · rw [if_neg ha] at hx
      rcases List.mem_cons.mp hx with h | h
      · exact .inl h
      · exact .inr h

/-- The prepend step never returns the empty string. -/
theorem prependUnderscore_ne_nil (l : List Char) : prependUnderscore l ≠ [] := by
  cases l with
  | nil => simp [prependUnderscore]
  | cons a as =>
    simp only [prependUnderscore]
    by_cases ha : is_allowed_character a = true
    · simp [ha]
    · simp [ha]

/-- The prepend step is the identity on a string starting with an allowed
character. -/
theorem prependUnderscore_id (a : Char) (as : List Char)
    (ha : is_allowed_character a = true) :
    prependUnderscore (a :: as) = a :: as := by
  simp [prependUnderscore, ha]

/-- Every character of a sanitized name is an allowed character. -/
theorem sanitize_allowed (s : List Char) :
    ∀ c ∈ sanitize_name_ s, is_allowed_character c = true := by
  intro c hc
  have hund : is_allowed_character '_' = true := by decide
  have hmid : ∀ x ∈ prependUnderscore (s.filter is_allowed_character),
      is_allowed_character x = true := by
    intro x hx
    rcases prependUnderscore_mem _ x hx with h | h
    · rw [h]; exact hund
    · exact List.of_mem_filter h
  simp only [sanitize_name_] at hc
  by_cases hk : is_keyword (prependUnderscore (s.filter is_allowed_character)) = true
  · rw [if_pos hk] at hc
    rcases List.mem_append.mp hc with h | h
    · exact hmid c h
    · simp at h
      rw [h]
      exact hund
  · rw [if_neg hk] at hc
    exact hmid c hc

/-- A sanitized name is never empty. -/
theorem sanitize_ne_nil (s : List Char) : sanitize_name_ s ≠ [] := by
  simp only [sanitize_name_]
  by_cases hk : is_keyword (prependUnderscore (s.filter is_allowed_character)) = true
  · rw [if_pos hk]
    simp
  · rw [if_neg hk]
    exact prependUnderscore_ne_nil _

set_option maxRecDepth 8000 in
/-- No keyword of the fixed list ends in an underscore. -/
theorem keywords_no_trailing_underscore :
    ∀ w ∈ KEYWORDS, w.toList.getLast? ≠ some '_' := by decide

/-- Appending an underscore never produces a keyword, because no keyword ends
in an underscore and lowercasing preserves the trailing underscore. -/
theorem is_keyword_append_underscore (l : List Char) :
    is_keyword (l ++ ['_']) = false := by
  by_contra h
  have h' : is_keyword (l ++ ['_']) = true := by
    cases hb : is_keyword (l ++ ['_']) with
    | false => exact absurd hb h
    | true => rfl
  unfold is_keyword at h'
  obtain ⟨w, hw, hEq⟩ := List.any_eq_true.mp h'
  have hEq' : w.toList = lowercase (l ++ ['_']) := eq_of_beq hEq
  apply keywords_no_trailing_underscore w hw
  rw [hEq']
  have hu : to_ascii_lowercase '_' = '_' := by decide
  have hlow : lowercase (l ++ ['_']) = lowercase l ++ ['_'] := by
    simp [lowercase, hu]
  rw [hlow, List.getLast?_concat]

/-- A sanitized name is never a keyword. -/
theorem sanitize_not_keyword (s : List Char) :
    is_keyword (sanitize_name_ s) = false := by
  simp only [sanitize_name_]
  by_cases hk : is_keyword (prependUnderscore (s.filter is_allowed_character)) = true
  · rw [if_pos hk]
    exact is_keyword_append_underscore _
  · rw [if_neg hk]
    exact Bool.eq_false_iff.mpr hk

/-- C8: sanitization is idempotent — `sanitize(sanitize(s)) = sanitize(s)`
for every string `s` (the assertion inside the Rust `sanitize_name`). -/
theorem sanitize_name_idempotent (s : List Char) :
    sanitize_name (sanitize_name s) = sanitize_name s := by
  unfold sanitize_name
  have hall := sanitize_allowed s
  have hne := sanitize_ne_nil s
  have hnk := sanitize_not_keyword s
  have hfilter : (sanitize_name_ s).filter is_allowed_character = sanitize_name_ s :=
    List.filter_eq_self.mpr hall
  conv_lhs => rw [sanitize_name_]
  rw [hfilter]
  cases hr : sanitize_name_ s with
  | nil => exact absurd hr hne
  | cons a as =>
    have ha : is_allowed_character a = true := hall a (hr ▸ List.mem_cons_self a as)
    rw [prependUnderscore_id a as ha, ← hr, hnk]
    simp

/-! ## ABI values and descriptors (solabi, as used by the sources)

The solabi library supplies `ValueKind` (the ABI type tree), `Value` (a
concrete ABI value), `Field` (a named type tree with tuple component names)
and `EventDescriptor`.  They are modelled structurally; strings are
`List Char`, byte strings `List Nat`, and the 256-bit integer payloads are an
unbounded `Int`/`Nat` (their numeric range never matters to the properties
proved here, only their big-endian serialization).  A solabi `Array` and
`FixedArray` store their element kind next to the element values; the solabi
constructors guarantee that every element has exactly that kind, which is the
well-formedness predicate `Value.wf` below. -/

/-- The ABI type tree (`solabi::value::ValueKind`). -/
inductive ValueKind where
  | int (w : Nat)
  | uint (w : Nat)
  | address
  | bool
  | fixedBytes (n : Nat)
  | function
  | bytes
  | string
  | fixedArray (n : Nat) (k : ValueKind)
  | tuple (ks : List ValueKind)
  | array (k : ValueKind)
  deriving Repr

mutual

/-- Structural equality on `ValueKind` (Rust derives `PartialEq`). -/
def ValueKind.beq : ValueKind → ValueKind → Bool
  | .int w, .int w' => w == w'
  | .uint w, .uint w' => w == w'
  | .address, .address => true
  | .bool, .bool => true
  | .fixedBytes n, .fixedBytes n' => n == n'
  | .function, .function => true
  | .bytes, .bytes => true
  | .string, .string => true
  | .fixedArray n k, .fixedArray n' k' => n == n' && ValueKind.beq k k'
  | .tuple ks, .tuple ls => ValueKind.beqList ks ls
  | .array k, .array k' => ValueKind.beq k k'
  | _, _ => false

/-- Elementwise `ValueKind.beq` on lists. -/
def ValueKind.beqList : List ValueKind → List ValueKind → Bool
  | [], [] => true
  | k :: ks, l :: ls => ValueKind.beq k l && ValueKind.beqList ks ls
  | _, _ => false

end

/-- A concrete ABI value (`solabi::value::Value`).  `int`/`uint` carry their
declared bit width and numeric payload, `fixedArray` and `array` carry the
element kind stored in the solabi `Array` struct, `function` carries the
20-byte address and the 4-byte selector. -/
inductive Value where
  | int (w : Nat) (v : Int)
  | uint (w : Nat) (v : Nat)
  | address (a : List Nat)
  | bool (b : Bool)
  | fixedBytes (bs : List Nat)
  | function (addr : List Nat) (sel : List Nat)
  | bytes (bs : List Nat)
  | string (s : List Char)
  | fixedArray (k : ValueKind) (vs : List Value)
  | tuple (vs : List Value)
  | array (k : ValueKind) (vs : List Value)
  deriving Repr

mutual

/-- Structural equality on `Value` (Rust derives `PartialEq`). -/
def Value.beq : Value → Value → Bool
  | .int w v, .int w' v' => w == w' && v == v'
  | .uint w v, .uint w' v' => w == w' && v == v'
  | .address a, .address a' => a == a'
  | .bool b, .bool b' => b == b'
  | .fixedBytes bs, .fixedBytes bs' => bs == bs'
  | .function a s, .function a' s' => a == a' && s == s'
  | .bytes bs, .bytes bs' => bs == bs'
  | .string s, .string s' => s == s'
  | .fixedArray k vs, .fixedArray k' vs' => ValueKind.beq k k' && Value.beqList vs vs'
  | .tuple vs, .tuple vs' => Value.beqList vs vs'
  | .array k vs, .array k' vs' => ValueKind.beq k k' && Value.beqList vs vs'
  | _, _ => false

/-- Elementwise `Value.beq` on lists. -/
def Value.beqList : List Value → List Value → Bool
  | [], [] => true
  | v :: vs, w :: ws => Value.beq v w && Value.beqList vs ws
  | _, _ => false

end

/-- A named field of an event (`solabi::abi::Field`): its name, type, and the
tuple component fields (`components.unwrap_or_default()` in the sources, so a
missing component list is the empty list). -/
inductive Field where
  | mk (name : List Char) (kind : ValueKind) (components : List Field)
  deriving Repr

/-- Field name accessor. -/
def Field.name : Field → List Char
  | .mk n _ _ => n

/-- Field kind accessor. -/
def Field.kind : Field → ValueKind
  | .mk _ k _ => k

/-- Field components accessor. -/
def Field.components : Field → List Field
  | .mk _ _ c => c

mutual

/-- Structural equality on `Field`. -/
def Field.beq : Field → Field → Bool
  | .mk n k c, .mk n' k' c' => n == n' && ValueKind.beq k k' && Field.beqList c c'

/-- Elementwise `Field.beq` on lists. -/
def Field.beqList : List Field → List Field → Bool
  | [], [] => true
  | f :: fs, g :: gs => Field.beq f g && Field.beqList fs gs
  | _, _ => false

end

/-! ### Decidable equality for the nested inductives -/

set_option maxHeartbeats 1000000 in
/-- Soundness of `ValueKind.beq`. -/
theorem ValueKind.eq_of_beq : ∀ (a b : ValueKind), ValueKind.beq a b = true → a = b := by
  suffices H : ∀ (N : Nat) (a b : ValueKind), sizeOf a ≤ N → ValueKind.beq a b = true → a = b by
    exact fun a b => H (sizeOf a) a b le_rfl
  intro N
  induction N with
  | zero =>
    intro a b ha
    exact absurd ha (by cases a <;> simp)
  | succ N ih =>
    intro a b ha h
    have L : ∀ (ks ls : List ValueKind), sizeOf ks ≤ N + 1 →
        ValueKind.beqList ks ls = true → ks = ls := by
      intro ks
      induction ks with
      | nil => intro ls _ h; cases ls with
        | nil => rfl
        | cons l ls => simp [ValueKind.beqList] at h
      | cons k ks ihl =>
        intro ls hs h
        cases ls with
        | nil => simp [ValueKind.beqList] at h
        | cons l ls =>
          simp only [ValueKind.beqList, Bool.and_eq_true] at h
          simp only [List.cons.sizeOf_spec] at hs
          rw [ih k l (by omega) h.1, ihl ls (by omega) h.2]
    cases a <;> cases b <;>
      simp only [ValueKind.beq, Bool.and_eq_true, beq_iff_eq, Bool.false_eq_true] at h <;>
      try exact h.elim
    case int.int w w' => rw [h]
    case uint.uint w w' => rw [h]
    case address.address => rfl
    case bool.bool => rfl
    case fixedBytes.fixedBytes n n' => rw [h]
    case function.function => rfl
    case bytes.bytes => rfl
    case string.string => rfl
    case fixedArray.fixedArray n k n' k' =>
      simp only [ValueKind.fixedArray.sizeOf_spec] at ha
      rw [h.1, ih k k' (by omega) h.2]
    case tuple.tuple ks ls =>
      simp only [ValueKind.tuple.sizeOf_spec] at ha
      rw [L ks ls (by omega) h]
    case array.array k k' =>
      simp only [ValueKind.array.sizeOf_spec] at ha
      rw [ih k k' (by omega) h]

set_option maxHeartbeats 1000000 in
/-- Reflexivity of `ValueKind.beq`. -/
theorem ValueKind.beq_refl : ∀ (a : ValueKind), ValueKind.beq a a = true := by
  suffices H : ∀ (N : Nat) (a : ValueKind), sizeOf a ≤ N → ValueKind.beq a a = true by
    exact fun a => H (sizeOf a) a le_rfl
  intro N
  induction N with
  | zero =>
    intro a ha
    exact absurd ha (by cases a <;> simp)
  | succ N ih =>
    intro a ha
    have L : ∀ (ks : List ValueKind), sizeOf ks ≤ N + 1 → ValueKind.beqList ks ks = true := by
      intro ks
      induction ks with
      | nil => intro _; rfl
      | cons k ks ihl =>
        intro hs
        simp only [List.cons.sizeOf_spec] at hs
        simp only [ValueKind.beqList, Bool.and_eq_true]
        exact ⟨ih k (by omega), ihl (by omega)⟩
    cases a <;> simp only [ValueKind.beq, Bool.and_eq_true, beq_iff_eq, beq_self_eq_true]
    case fixedArray n k =>
      simp only [ValueKind.fixedArray.sizeOf_spec] at ha
      exact ⟨trivial, ih k (by omega)⟩
    case tuple ks =>
      simp only [ValueKind.tuple.sizeOf_spec] at ha
      exact L ks (by omega)
    case array k =>
      simp only [ValueKind.array.sizeOf_spec] at ha
      exact ih k (by omega)

instance : DecidableEq ValueKind := fun a b =>
  decidable_of_iff (ValueKind.beq a b = true)
    ⟨ValueKind.eq_of_beq a b, fun h => h ▸ ValueKind.beq_refl a⟩

set_option maxHeartbeats 1000000 in
/-- Soundness of `Value.beq`. -/
theorem Value.eq_of_beq_value : ∀ (a b : Value), Value.beq a b = true → a = b := by
  suffices H : ∀ (N : Nat) (a b : Value), sizeOf a ≤ N → Value.beq a b = true → a = b by
    exact fun a b => H (sizeOf a) a b le_rfl
  intro N
  induction N with
  | zero =>
    intro a b ha
    exact absurd ha (by cases a <;> simp)
  | succ N ih =>
    intro a b ha h
    have L : ∀ (vs ws : List Value), sizeOf vs ≤ N + 1 →
        Value.beqList vs ws = true → vs = ws := by
      intro vs
      induction vs with
      | nil => intro ws _ h; cases ws with
        | nil => rfl
        | cons w ws => simp [Value.beqList] at h
      | cons v vs ihl =>
        intro ws hs h
        cases ws with
        | nil => simp [Value.beqList] at h
        | cons w ws =>
          simp only [Value.beqList, Bool.and_eq_true] at h
          simp only [List.cons.sizeOf_spec] at hs
          rw [ih v w (by omega) h.1, ihl ws (by omega) h.2]
    cases a <;> cases b <;>
      simp only [Value.beq, Bool.and_eq_true, beq_iff_eq, Bool.false_eq_true] at h <;>
      try exact h.elim
    case int.int w v w' v' => rw [h.1, h.2]
    case uint.uint w v w' v' => rw [h.1, h.2]
    case address.address a a' => rw [h]
    case bool.bool b b' => rw [h]
    case fixedBytes.fixedBytes bs bs' => rw [h]
    case function.function a s a' s' => rw [h.1, h.2]
    case bytes.bytes bs bs' => rw [h]
    case string.string s s' => rw [h]
    case fixedArray.fixedArray k vs k' vs' =>
      simp only [Value.fixedArray.sizeOf_spec] at ha
      rw [ValueKind.eq_of_beq k k' h.1, L vs vs' (by omega) h.2]
    case tuple.tuple vs vs' =>
      simp only [Value.tuple.sizeOf_spec] at ha
      rw [L vs vs' (by omega) h]
    case array.array k vs k' vs' =>
      simp only [Value.array.sizeOf_spec] at ha
      rw [ValueKind.eq_of_beq k k' h.1, L vs vs' (by omega) h.2]

set_option maxHeartbeats 1000000 in
/-- Reflexivity of `Value.beq`. -/
theorem Value.beq_refl_value : ∀ (a : Value), Value.beq a a = true := by
  suffices H : ∀ (N : Nat) (a : Value), sizeOf a ≤ N → Value.beq a a = true by
    exact fun a => H (sizeOf a) a le_rfl
  intro N
  induction N with
  | zero =>
    intro a ha
    exact absurd ha (by cases a <;> simp)
  | succ N ih =>
    intro a ha
    have L : ∀ (vs : List Value), sizeOf vs ≤ N + 1 → Value.beqList vs vs = true := by
      intro vs
      induction vs with
      | nil => intro _; rfl
      | cons v vs ihl =>
        intro hs
        simp only [List.cons.sizeOf_spec] at hs
        simp only [Value.beqList, Bool.and_eq_true]
        exact ⟨ih v (by omega), ihl (by omega)⟩
    cases a <;> simp only [Value.beq, Bool.and_eq_true, beq_iff_eq, beq_self_eq_true] <;>
      try exact ⟨trivial, trivial⟩
    case fixedArray k vs =>
      simp only [Value.fixedArray.sizeOf_spec] at ha
      exact ⟨ValueKind.beq_refl k, L vs (by omega)⟩
    case tuple vs =>
      simp only [Value.tuple.sizeOf_spec] at ha
      exact L vs (by omega)
    case array k vs =>
      simp only [Value.array.sizeOf_spec] at ha
      exact ⟨ValueKind.beq_refl k, L vs (by omega)⟩

instance : DecidableEq Value := fun a b =>
  decidable_of_iff (Value.beq a b = true)
    ⟨Value.eq_of_beq_value a b, fun h => h ▸ Value.beq_refl_value a⟩

/-- Soundness of `Field.beq`. -/
theorem Field.eq_of_beq_field : ∀ (a b : Field), Field.beq a b = true → a = b := by
  suffices H : ∀ (N : Nat) (a b : Field), sizeOf a ≤ N → Field.beq a b = true → a = b by
    exact fun a b => H (sizeOf a) a b le_rfl
  intro N
  induction N with
  | zero =>
    intro a b ha
    exact absurd ha (by cases a <;> simp)
  | succ N ih =>
    intro a b ha h
    have L : ∀ (fs gs : List Field), sizeOf fs ≤ N + 1 →
        Field.beqList fs gs = true → fs = gs := by
      intro fs
      induction fs with
      | nil => intro gs _ h; cases gs with
        | nil => rfl
        | cons g gs => simp [Field.beqList] at h
      | cons f fs ihl =>
        intro gs hs h
        cases gs with
        | nil => simp [Field.beqList] at h
        | cons g gs =>
          simp only [Field.beqList, Bool.and_eq_true] at h
          simp only [List.cons.sizeOf_spec] at hs
          rw [ih f g (by omega) h.1, ihl gs (by omega) h.2]
    cases a with
    | mk n k c =>
      cases b with
      | mk n' k' c' =>
        simp only [Field.beq, Bool.and_eq_true, beq_iff_eq] at h
        simp only [Field.mk.sizeOf_spec] at ha
        rw [h.1.1, ValueKind.eq_of_beq k k' h.1.2, L c c' (by omega) h.2]

/-- Reflexivity of `Field.beq`. -/
theorem Field.beq_refl_field : ∀ (a : Field), Field.beq a a = true := by
  suffices H : ∀ (N : Nat) (a : Field), sizeOf a ≤ N → Field.beq a a = true by
    exact fun a => H (sizeOf a) a le_rfl
  intro N
  induction N with
  | zero =>
    intro a ha
    exact absurd ha (by cases a <;> simp)
  | succ N ih =>
    intro a ha
    have L : ∀ (fs : List Field), sizeOf fs ≤ N + 1 → Field.beqList fs fs = true := by
      intro fs
      induction fs with
      | nil => intro _; rfl
      | cons f fs ihl =>
        intro hs
        simp only [List.cons.sizeOf_spec] at hs
        simp only [Field.beqList, Bool.and_eq_true]
        exact ⟨ih f (by omega), ihl (by omega)⟩
    cases a with
    | mk n k c =>
      simp only [Field.beq, Bool.and_eq_true, beq_iff_eq, beq_self_eq_true]
      simp only [Field.mk.sizeOf_spec] at ha
      exact ⟨⟨trivial, ValueKind.beq_refl k⟩, L c (by omega)⟩

instance : DecidableEq Field := fun a b =>
  decidable_of_iff (Field.beq a b = true)
    ⟨Field.eq_of_beq_field a b, fun h => h ▸ Field.beq_refl_field a⟩

/-- An event input (`solabi::abi::EventField`): a field plus its indexed
flag. -/
structure EventField where
  field : Field
  indexed : Bool
  deriving DecidableEq, Repr

/-- An event descriptor (`solabi::abi::EventDescriptor`): the event name and
its ordered inputs. -/
structure EventDescriptor where
  name : List Char
  inputs : List EventField
  deriving DecidableEq, Repr

/-! ## Value kinds and well-formedness -/

mutual

/-- The kind of a value (`solabi::value::Value::kind`): leaf values report
their leaf kind, tuples the tuple of their element kinds, arrays report the
element kind stored alongside the elements. -/
def Value.kindOf : Value → ValueKind
  | .int w _ => .int w
  | .uint w _ => .uint w
  | .address _ => .address
  | .bool _ => .bool
  | .fixedBytes bs => .fixedBytes bs.length
  | .function _ _ => .function
  | .bytes _ => .bytes
  | .string _ => .string
  | .fixedArray k vs => .fixedArray vs.length k
  | .tuple vs => .tuple (Value.kindOfList vs)
  | .array k _ => .array k

/-- Elementwise `Value.kindOf`. -/
def Value.kindOfList : List Value → List ValueKind
  | [] => []
  | v :: vs => Value.kindOf v :: Value.kindOfList vs

end

mutual

/-- Invariant the solabi smart constructors maintain: every element of an
array or fixed array has exactly the element kind stored in the array. -/
def Value.wf : Value → Bool
  | .fixedArray k vs => Value.wfElems k vs
  | .tuple vs => Value.wfList vs
  | .array k vs => Value.wfElems k vs
  | _ => true

/-- All values of a list are well-formed. -/
def Value.wfList : List Value → Bool
  | [] => true
  | v :: vs => Value.wf v && Value.wfList vs

/-- All values of a list are well-formed and have kind `k`. -/
def Value.wfElems (k : ValueKind) : List Value → Bool
  | [] => true
  | v :: vs => Value.wf v && ValueKind.beq (Value.kindOf v) k && Value.wfElems k vs

end

/-! ## Descriptor and value visitors (src/database/event_visitor.rs)

`visit_kind` walks a `ValueKind` with the field name and tuple components,
emitting seven token kinds in a fixed order; `visit_value` walks a `Value`,
silently flattening tuples and fixed arrays and bracketing dynamic arrays
with `ArrayStart(len)`/`ArrayEnd`.  Both are modelled as functions returning
the emitted token list. -/

/-- A token of the descriptor visitor (`enum VisitKind`). -/
inductive VisitKind where
  | arrayStart (name : List Char)
  | arrayEnd
  | tupleStart (name : List Char)
  | tupleEnd
  | fixedArrayStart (n : Nat) (name : List Char)
  | fixedArrayEnd
  | leaf (k : ValueKind) (name : List Char)
  deriving DecidableEq, Repr

/-- A token of the value visitor (`enum VisitValue`). -/
inductive VisitValue where
  | arrayStart (n : Nat)
  | arrayEnd
  | value (v : Value)
  deriving DecidableEq, Repr

mutual

/-- Model of `visit_kind`: tuples emit `TupleStart`/`TupleEnd` around their
components (whose names come from the component fields), fixed arrays emit
their bracket and visit the element kind `n` times forwarding name and
components, dynamic arrays emit their bracket and visit the element kind once
forwarding name and components, leaves emit themselves with the current
name.  The Rust code asserts that a tuple's kind list and component list have
equal length and that a leaf has no components; `compsAlign` captures these
asserts, and the model truncates via zip-style recursion where the Rust
would panic. -/
def visitKind (k : ValueKind) (name : List Char) (components : List Field) :
    List VisitKind :=
  match k with
  | .tuple ks => .tupleStart name :: (visitKindList ks components ++ [.tupleEnd])
  | .fixedArray n k =>
      .fixedArrayStart n name ::
        ((List.replicate n (visitKind k name components)).flatten ++ [.fixedArrayEnd])
  | .array k => .arrayStart name :: (visitKind k name components ++ [.arrayEnd])
  | k => [.leaf k name]

/-- Tuple components of `visit_kind`: each component kind paired with the
component field's name and nested components. -/
def visitKindList (ks : List ValueKind) (components : List Field) : List VisitKind :=
  match ks, components with
  | k :: ks, .mk fname _ fcomps :: components =>
      visitKind k fname fcomps ++ visitKindList ks components
  | _, _ => []

end

/-- Model of `visit_field`: visit the field's kind with its name and
components (`components.unwrap_or_default()`). -/
def visitField (f : Field) : List VisitKind :=
  visitKind f.kind f.name f.components

mutual

/-- Model of `visit_value`: tuples and fixed arrays are flattened silently,
dynamic arrays are bracketed by `ArrayStart(len)`/`ArrayEnd`, leaves emit
themselves. -/
def visitValue (v : Value) : List VisitValue :=
  match v with
  | .tuple vs => visitValueList vs
  | .fixedArray _ vs => visitValueList vs
  | .array _ vs => .arrayStart vs.length :: (visitValueList vs ++ [.arrayEnd])
  | v => [.value v]

/-- Concatenated value visits of a list of values. -/
def visitValueList : List Value → List VisitValue
  | [] => []
  | v :: vs => visitValue v ++ visitValueList vs

end

mutual

/-- The asserts of `visit_kind` as a predicate on the kind and the component
fields travelling with it: a tuple's component list has the same length as
its kind list (componentwise recursively), arrays forward the same component
list to the element kind, and a leaf's component list is empty. -/
def compsAlign (k : ValueKind) (components : List Field) : Bool :=
  match k with
  | .tuple ks => compsAlignList ks components
  | .fixedArray _ k => compsAlign k components
  | .array k => compsAlign k components
  | _ => components.isEmpty

/-- Componentwise `compsAlign` (fails on a length mismatch). -/
def compsAlignList : List ValueKind → List Field → Bool
  | [], [] => true
  | k :: ks, .mk _ _ fcomps :: comps => compsAlign k fcomps && compsAlignList ks comps
  | _, _ => false

end

/-! ## Alignment of the two token streams

`Aligns ks vs` states that the value-token stream `vs` is positionally
aligned with the kind-token stream `ks`: tuple and fixed-array markers of the
kind stream match no value token, a `leaf` kind token matches exactly one
`value` token of that kind, and an `arrayStart … arrayEnd` bracket of the
kind stream (enclosing the element segment, emitted once) matches an
`arrayStart(n) … arrayEnd` bracket of the value stream whose interior is `n`
consecutive repetitions, each aligned with the element segment. -/

mutual

/-- Positional alignment of a kind-token stream with a value-token stream. -/
inductive Aligns : List VisitKind → List VisitValue → Prop
  | nil : Aligns [] []
  | leaf {v : Value} {κ : ValueKind} {nm : List Char} {ks : List VisitKind}
      {vs : List VisitValue} :
      Value.kindOf v = κ → Aligns ks vs →
      Aligns (.leaf κ nm :: ks) (.value v :: vs)
  | tupleStart {nm ks vs} : Aligns ks vs → Aligns (.tupleStart nm :: ks) vs
  | tupleEnd {ks vs} : Aligns ks vs → Aligns (.tupleEnd :: ks) vs
  | fixedStart {n nm ks vs} : Aligns ks vs → Aligns (.fixedArrayStart n nm :: ks) vs
  | fixedEnd {ks vs} : Aligns ks vs → Aligns (.fixedArrayEnd :: ks) vs
  | arr {nm : List Char} {seg : List VisitKind} {n : Nat} {vss : List VisitValue}
      {ks : List VisitKind} {vs : List VisitValue} :
      Reps seg n vss → Aligns ks vs →
      Aligns (.arrayStart nm :: (seg ++ .arrayEnd :: ks))
        (.arrayStart n :: (vss ++ .arrayEnd :: vs))

/-- The interior of a dynamic array: `n` repetitions of streams, each aligned
with the element segment `seg`. -/
inductive Reps : List VisitKind → Nat → List VisitValue → Prop
  | zero {seg} : Reps seg 0 []
  | succ {seg n vs1 vss} : Aligns seg vs1 → Reps seg n vss →
      Reps seg (n + 1) (vs1 ++ vss)

end

/-- Alignment is closed under concatenation of aligned stream pairs. -/
theorem Aligns.append : ∀ {k1 v1 k2 v2}, Aligns k1 v1 → Aligns k2 v2 →
    Aligns (k1 ++ k2) (v1 ++ v2)
  | _, _, _, _, .nil, h2 => h2
  | _, _, _, _, .leaf hv h, h2 => .leaf hv (Aligns.append h h2)
  | _, _, _, _, .tupleStart h, h2 => .tupleStart (Aligns.append h h2)
  | _, _, _, _, .tupleEnd h, h2 => .tupleEnd (Aligns.append h h2)
  | _, _, _, _, .fixedStart h, h2 => .fixedStart (Aligns.append h h2)
  | _, _, _, _, .fixedEnd h, h2 => .fixedEnd (Aligns.append h h2)
  | _, _, _, _, @Aligns.arr nm seg n vss ks vs hreps h, h2 => by
      have hx := @Aligns.arr nm seg n vss _ _ hreps (Aligns.append h h2)
      simpa [List.append_assoc] using hx
termination_by k1 v1 k2 v2 h1 h2 => k1.length
decreasing_by all_goals (simp [List.length_append]; try omega)


set_option maxHeartbeats 1000000 in
/-- Core alignment theorem: for a well-formed value whose kind satisfies the
visitor's component asserts, the value-token stream of `visit_value` aligns
with the kind-token stream of `visit_kind` over the value's kind. -/
theorem visitAligned : ∀ (v : Value) (nm : List Char) (comps : List Field),
    Value.wf v = true → compsAlign (Value.kindOf v) comps = true →
    Aligns (visitKind (Value.kindOf v) nm comps) (visitValue v) := by
  suffices H : ∀ (N : Nat) (v : Value), sizeOf v ≤ N → ∀ (nm : List Char)
      (comps : List Field), Value.wf v = true →
      compsAlign (Value.kindOf v) comps = true →
      Aligns (visitKind (Value.kindOf v) nm comps) (visitValue v) by
    exact fun v nm comps hw hc => H (sizeOf v) v le_rfl nm comps hw hc
  intro N
  induction N with
  | zero =>
    intro v hv
    exact absurd hv (by cases v <;> simp)
  | succ N ih =>
    intro v hv nm comps hw hc
    have Ltuple : ∀ (vs : List Value) (comps : List Field),
        (∀ x ∈ vs, sizeOf x ≤ N) → Value.wfList vs = true →
        compsAlignList (Value.kindOfList vs) comps = true →
        Aligns (visitKindList (Value.kindOfList vs) comps) (visitValueList vs) := by
      intro vs
      induction vs with
      | nil =>
        intro comps _ _ hc
        cases comps with
        | nil => exact .nil
        | cons f fs => simp [Value.kindOfList, compsAlignList] at hc
      | cons x xs ihl =>
        intro comps hsz hwl hcl
        cases comps with
        | nil => simp [Value.kindOfList, compsAlignList] at hcl
        | cons f fs =>
          cases f with
          | mk fname fkind fcomps =>
            simp only [Value.kindOfList, compsAlignList, Bool.and_eq_true] at hcl
            simp only [Value.wfList, Bool.and_eq_true] at hwl
            simp only [Value.kindOfList, visitKindList]
            exact Aligns.append
              (ih x (hsz x (List.mem_cons_self x xs)) fname fcomps hwl.1 hcl.1)
              (ihl fs (fun y hy => hsz y (List.mem_cons_of_mem x hy)) hwl.2 hcl.2)
    have Lelems : ∀ (vs : List Value) (k : ValueKind) (nm' : List Char)
        (comps' : List Field), (∀ x ∈ vs, sizeOf x ≤ N) →
        Value.wfElems k vs = true → compsAlign k comps' = true →
        Aligns ((List.replicate vs.length (visitKind k nm' comps')).flatten)
          (visitValueList vs) ∧
        Reps (visitKind k nm' comps') vs.length (visitValueList vs) := by
      intro vs k nm' comps'
      induction vs with
      | nil =>
        intro _ _ _
        exact ⟨.nil, .zero⟩
      | cons x xs ihl =>
        intro hsz hwe hca
        simp only [Value.wfElems, Bool.and_eq_true] at hwe
        have hkx : Value.kindOf x = k := ValueKind.eq_of_beq _ _ hwe.1.2
        have hx : Aligns (visitKind k nm' comps') (visitValue x) := by
          rw [← hkx]
          rw [← hkx] at hca
          exact ih x (hsz x (List.mem_cons_self x xs)) nm' comps' hwe.1.1 hca
        have hrest := ihl (fun y hy => hsz y (List.mem_cons_of_mem x hy)) hwe.2 hca
        constructor
        · simp only [List.length_cons, List.replicate_succ, List.flatten_cons,
            visitValueList]
          exact Aligns.append hx hrest.1
        · simp only [List.length_cons, visitValueList]
          exact .succ hx hrest.2
    have hsize : ∀ (vs : List Value), sizeOf vs ≤ N → ∀ x ∈ vs, sizeOf x ≤ N := by
      intro vs hvs x hx
      have := List.sizeOf_lt_of_mem hx
      omega
    cases v with
    | int w i =>
      exact .leaf rfl .nil
    | uint w u =>
      exact .leaf rfl .nil
    | address a =>
      exact .leaf rfl .nil
    | bool b =>
      exact .leaf rfl .nil
    | fixedBytes bs =>
      exact .leaf rfl .nil
    | function a s =>
      exact .leaf rfl .nil
    | bytes bs =>
      exact .leaf rfl .nil
    | string s =>
      exact .leaf rfl .nil
    | tuple vs =>
      simp only [Value.kindOf, visitKind, visitValue] at *
      simp only [Value.wf] at hw
      simp only [compsAlign] at hc
      have hA := Ltuple vs comps
        (hsize vs (by simp only [Value.tuple.sizeOf_spec] at hv; omega)) hw hc
      have := @Aligns.tupleStart nm _ _
        (Aligns.append hA (Aligns.tupleEnd Aligns.nil))
      simpa using this
    | fixedArray k vs =>
      simp only [Value.kindOf, visitKind, visitValue] at *
      simp only [Value.wf] at hw
      simp only [compsAlign] at hc
      have hA := (Lelems vs k nm comps
        (hsize vs (by simp only [Value.fixedArray.sizeOf_spec] at hv; omega)) hw hc).1
      have := @Aligns.fixedStart vs.length nm _ _
        (Aligns.append hA (Aligns.fixedEnd Aligns.nil))
      simpa using this
    | array k vs =>
      simp only [Value.kindOf, visitKind, visitValue] at *
      simp only [Value.wf] at hw
      simp only [compsAlign] at hc
      have hR := (Lelems vs k nm comps
        (hsize vs (by simp only [Value.array.sizeOf_spec] at hv; omega)) hw hc).2
      exact Aligns.arr hR Aligns.nil

/-- C9: for every well-formed value `v` whose kind is `k` (and component
fields satisfying the visitor's asserts), the token stream of the value
visitor over `v` aligns positionally with the token stream of the type
visitor over `k`: outside dynamic arrays each emitted value carries the kind
of the corresponding type leaf, array brackets occur at matching positions,
and inside a dynamic array of length `n` the value stream repeats the
array's type segment `n` times in order, so zipping the two streams pairs
every value with its declared leaf kind. -/
theorem visit_streams_align (v : Value) (k : ValueKind) (nm : List Char)
    (comps : List Field) (hw : Value.wf v = true) (hk : Value.kindOf v = k)
    (hc : compsAlign k comps = true) :
    Aligns (visitKind k nm comps) (visitValue v) := by
  subst hk
  exact visitAligned v nm comps hw hc

/-- Witness for C9 at a concrete value: a dynamic array of two booleans. -/
theorem visit_streams_align_witness :
    Aligns (visitKind (ValueKind.array .bool) [] [])
      (visitValue (Value.array .bool [.bool true, .bool false])) :=
  visit_streams_align (Value.array .bool [.bool true, .bool false])
    (ValueKind.array .bool) [] [] (by decide) (by decide) (by decide)

/-! ## Schema planner (src/database/event_to_tables.rs)

`event_to_tables` validates the event name, rejects nested dynamic arrays,
and walks every input field with the descriptor visitor, building a primary
table plus one table per dynamic array.  The walking state of
`handle_field_simple_names` is `(primary, dynamic_arrays, dynamic_array)`
where `dynamic_array` is the index of the array table currently receiving
leaves (`None` outside arrays; reset for every input field). -/

/-- A table column: its leaf kind and sanitized name. -/
structure Column where
  kind : ValueKind
  name : List Char
  deriving DecidableEq, Repr

/-- A table: its sanitized name and columns. -/
structure Table where
  name : List Char
  columns : List Column
  deriving DecidableEq, Repr

/-- The schema of one event: the primary table and one table per dynamic
array, in visit order. -/
structure Tables where
  primary : Table
  dynamicArrays : List Table
  deriving DecidableEq, Repr

/-- Decimal digits of a number, as in Rust's `format!` of a `usize`. -/
def natChars (n : Nat) : List Char :=
  (Nat.repr n).toList

/-- Replace the element at an index, leaving the list unchanged when the
index is out of range (`&mut` access in the Rust state machine). -/
def listModify (l : List α) (i : Nat) (f : α → α) : List α :=
  match l, i with
  | [], _ => []
  | x :: xs, 0 => f x :: xs
  | x :: xs, i + 1 => x :: listModify xs i f

/-- The freshly allocated (still column-less) table for a dynamic array:
named `sanitize("{event}_{name or array}_{index}")`. -/
def arrayTableInit (eventName nm : List Char) (index : Nat) : Table :=
  { name := sanitize_name (eventName ++ ['_'] ++
      (if nm.isEmpty then ['a', 'r', 'r', 'a', 'y'] else nm) ++ ['_'] ++
      natChars index),
    columns := [] }

/-- The column appended for a leaf: named
`sanitize("{name or field}_{column count}")`, of the leaf's kind. -/
def leafColumn (k : ValueKind) (nm : List Char) (index : Nat) : Column :=
  { kind := k,
    name := sanitize_name ((if nm.isEmpty then ['f', 'i', 'e', 'l', 'd'] else nm) ++
      ['_'] ++ natChars index) }

/-- Append the leaf column for `k` named after `nm` to a table. -/
def appendLeaf (k : ValueKind) (nm : List Char) (t : Table) : Table :=
  { t with columns := t.columns ++ [leafColumn k nm t.columns.length] }

/-- One step of the `handle_field_simple_names` visitor closure:
`ArrayStart` allocates a table named `sanitize("{event}_{name or array}_{index}")`
and redirects leaves into it, `ArrayEnd` redirects back to the primary table,
`Leaf` appends a column named `sanitize("{name or field}_{column count}")` to
the current table; other tokens do nothing. -/
def handleTok (eventName : List Char) :
    (Table × List Table × Option Nat) → VisitKind → (Table × List Table × Option Nat)
  | (primary, arrays, _), .arrayStart nm =>
      (primary, arrays ++ [arrayTableInit eventName nm arrays.length], some arrays.length)
  | (primary, arrays, _), .arrayEnd => (primary, arrays, none)
  | (primary, arrays, dyn), .leaf k nm =>
      match dyn with
      | some index => (primary, listModify arrays index (appendLeaf k nm), dyn)
      | none => (appendLeaf k nm primary, arrays, dyn)
  | s, .tupleStart _ => s
  | s, .tupleEnd => s
  | s, .fixedArrayStart _ _ => s
  | s, .fixedArrayEnd => s

/-- Model of `handle_field_simple_names`: fold the visitor over one field's
token stream, starting outside any array, and drop the final redirection
state. -/
def handleField (eventName : List Char) (primary : Table) (arrays : List Table)
    (f : Field) : Table × List Table :=
  let r := (visitField f).foldl (handleTok eventName) (primary, arrays, none)
  (r.1, r.2.1)

/-- One step of the `has_nested_dynamic_arrays` visitor closure: track the
dynamic-array nesting level and its maximum. -/
def nestedStep : (Nat × Nat) → VisitKind → (Nat × Nat)
  | (level, maxLevel), .arrayStart _ => (level + 1, max maxLevel (level + 1))
  | (level, maxLevel), .arrayEnd => (level - 1, maxLevel)
  | s, .tupleStart _ => s
  | s, .tupleEnd => s
  | s, .fixedArrayStart _ _ => s
  | s, .fixedArrayEnd => s
  | s, .leaf _ _ => s

/-- Model of `has_nested_dynamic_arrays`: the maximum dynamic-array nesting
level of the field's token stream exceeds one. -/
def has_nested_dynamic_arrays (f : Field) : Bool :=
  decide (((visitField f).foldl nestedStep (0, 0)).2 > 1)

/-- Model of `event_to_tables`: reject a name that is not its own sanitized
form, a name starting with an underscore, and descriptors with nested
dynamic arrays; then fold `handle_field_simple_names` over the inputs. -/
def event_to_tables (name : List Char) (event : EventDescriptor) :
    Except String Tables :=
  if sanitize_name name ≠ name then
    .error "event name is not valid"
  else if name.head? = some '_' then
    .error "event name starts with an underscore"
  else if event.inputs.any (fun input => has_nested_dynamic_arrays input.field) then
    .error "event contains a dynamic array inside of a dynamic array"
  else
    let r := event.inputs.foldl
      (fun (acc : Table × List Table) input => handleField name acc.1 acc.2 input.field)
      ({ name := name, columns := [] }, [])
    .ok { primary := r.1, dynamicArrays := r.2 }

/-! ## Column binder (SqliteInner::store_event, src/database/sqlite/mod.rs)

`store_event` serializes the decoded field values into one bucket per table —
the primary bucket plus one `(Some(len), values)` bucket per dynamic array —
by folding the value visitor, then executes the pre-prepared insert
statements: for each `(statement, bucket)` pair in order it inserts
`array_element_count` rows (1 for the primary bucket), each row carrying the
four fixed columns, the array index for array tables, and `statement.fields`
bucket values. -/

/-- An SQLite value as produced by the sqlite backend's binder (`rusqlite`
`Value`): only 64-bit integers and blobs are ever produced. -/
inductive SqlValue where
  | integer (i : Int)
  | blob (bs : List Nat)
  deriving DecidableEq, Repr

/-- Big-endian byte serialization of `v` into the given number of bytes
(`to_be_bytes` of the 256-bit integer types). -/
def beBytes (bytes v : Nat) : List Nat :=
  (List.range bytes).map fun i => v / 256 ^ (bytes - 1 - i) % 256

/-- Reinterpret a signed 256-bit integer as its unsigned two's-complement
bit pattern. -/
def intToU256 (i : Int) : Nat :=
  (i % (2 ^ 256 : Nat)).toNat

/-- UTF-8 encoding of one scalar value (Rust `str::as_bytes`). -/
def utf8Char (c : Char) : List Nat :=
  let n := c.toNat
  if n < 0x80 then [n]
  else if n < 0x800 then [0xC0 + n / 0x40, 0x80 + n % 0x40]
  else if n < 0x10000 then
    [0xE0 + n / 0x1000, 0x80 + n / 0x40 % 0x40, 0x80 + n % 0x40]
  else
    [0xF0 + n / 0x40000, 0x80 + n / 0x1000 % 0x40, 0x80 + n / 0x40 % 0x40,
     0x80 + n % 0x40]

/-- UTF-8 encoding of a string. -/
def utf8 (s : List Char) : List Nat :=
  (s.map utf8Char).flatten

/-- The leaf-value serialization of the sqlite binder: big integers as
32-byte big-endian blobs, addresses as their 20 bytes, booleans as 0/1
integers, fixed bytes and byte strings as blobs, functions as the 24-byte
address-and-selector blob, strings as their UTF-8 bytes.  Composite values
never reach this function (the `unreachable!()` arm of the Rust match); they
map to an empty blob. -/
def toSqlValue : Value → SqlValue
  | .int _ i => .blob (beBytes 32 (intToU256 i))
  | .uint _ u => .blob (beBytes 32 u)
  | .address a => .blob a
  | .bool b => .integer (if b then 1 else 0)
  | .fixedBytes bs => .blob bs
  | .function a s => .blob (a ++ s)
  | .bytes bs => .blob bs
  | .string s => .blob (utf8 s)
  | .fixedArray _ _ => .blob []
  | .tuple _ => .blob []
  | .array _ _ => .blob []

/-- Append a serialized value to the first bucket (`first_mut`). -/
def pushFirst (buckets : List (Option Nat × List SqlValue)) (x : SqlValue) :
    List (Option Nat × List SqlValue) :=
  listModify buckets 0 (fun b => (b.1, b.2 ++ [x]))

/-- Append a serialized value to the last bucket (`last_mut`). -/
def pushLast (buckets : List (Option Nat × List SqlValue)) (x : SqlValue) :
    List (Option Nat × List SqlValue) :=
  listModify buckets (buckets.length - 1) (fun b => (b.1, b.2 ++ [x]))

/-- One step of the `store_event` binder closure over the value-token stream:
`ArrayStart(len)` opens a bucket `(Some(len), [])` and enters array mode,
`ArrayEnd` leaves array mode, a value is serialized and appended to the last
bucket while in array mode, to the first (primary) bucket otherwise. -/
def bucketsStep : (List (Option Nat × List SqlValue) × Bool) → VisitValue →
    (List (Option Nat × List SqlValue) × Bool)
  | (buckets, _), .arrayStart n => (buckets ++ [(some n, [])], true)
  | (buckets, _), .arrayEnd => (buckets, false)
  | (buckets, inArray), .value v =>
      if inArray then (pushLast buckets (toSqlValue v), inArray)
      else (pushFirst buckets (toSqlValue v), inArray)

/-- Model of the bucket construction of `store_event`: fold the binder over
the value visits of all fields, starting from the single empty primary
bucket outside array mode. -/
def buildBuckets (fields : List Value) : List (Option Nat × List SqlValue) :=
  ((visitValueList fields).foldl bucketsStep ([(none, [])], false)).1

/-- The `fields` count of each pre-prepared insert statement, in table
order: the number of event columns of the table (fixed columns and array
index not counted). -/
def insertFieldCounts (t : Tables) : List Nat :=
  t.primary.columns.length :: t.dynamicArrays.map (fun a => a.columns.length)

/-- The four fixed column values bound for every row of one log. -/
def fixedColumns (blockNumber logIndex transactionIndex : Nat)
    (address : List Nat) : List SqlValue :=
  [.integer blockNumber, .integer logIndex, .integer transactionIndex, .blob address]

/-- The rows the insert loop of `store_event` binds for one `(statement,
bucket)` pair: `array_element_count` rows (1 for the primary bucket), the
i-th row being the fixed columns, then the array index `i` for array tables,
then the i-th slice of `fields` bucket values. -/
def emitTableRows (fields : Nat) (fixed : List SqlValue)
    (bucket : Option Nat × List SqlValue) : List (List SqlValue) :=
  let count := bucket.1.getD 1
  (List.range count).map fun i =>
    fixed ++ (if bucket.1.isSome then [SqlValue.integer (Int.ofNat i)] else []) ++
      ((bucket.2.drop (i * fields)).take fields)

/-- The rows bound for all tables of one log, in table order. -/
def emitRows (counts : List Nat) (fixed : List SqlValue)
    (buckets : List (Option Nat × List SqlValue)) : List (List (List SqlValue)) :=
  (counts.zip buckets).map fun p => emitTableRows p.1 fixed p.2

/-! ## Structural measures on kinds used to reason about the two folds -/

mutual

/-- Maximum dynamic-array nesting depth of a kind (0 when the kind contains
no dynamic array; a fixed array of length 0 emits no element tokens). -/
def arrDepth : ValueKind → Nat
  | .tuple ks => arrDepthList ks
  | .fixedArray n k => if n = 0 then 0 else arrDepth k
  | .array k => arrDepth k + 1
  | _ => 0

/-- Maximum `arrDepth` over a list of kinds. -/
def arrDepthList : List ValueKind → Nat
  | [] => 0
  | k :: ks => max (arrDepth k) (arrDepthList ks)

end

mutual

/-- Number of leaf tokens the descriptor visitor emits for a kind (inside a
dynamic array the element kind is visited once). -/
def leafCountK : ValueKind → Nat
  | .tuple ks => leafCountKList ks
  | .fixedArray n k => n * leafCountK k
  | .array k => leafCountK k
  | _ => 1

/-- Sum of `leafCountK` over a list of kinds. -/
def leafCountKList : List ValueKind → Nat
  | [] => 0
  | k :: ks => leafCountK k + leafCountKList ks

end

/-- Whether a kind token is an array bracket. -/
def isArrayTok : VisitKind → Bool
  | .arrayStart _ => true
  | .arrayEnd => true
  | _ => false

/-- Whether a kind token is a leaf. -/
def isLeafTok : VisitKind → Bool
  | .leaf _ _ => true
  | _ => false

/-- Whether a value token is a plain value. -/
def isValueTok : VisitValue → Bool
  | .value _ => true
  | _ => false

/-! ### Lemmas about `listModify` -/

/-- Modifying preserves the length. -/
theorem listModify_length (l : List α) (i : Nat) (f : α → α) :
    (listModify l i f).length = l.length := by
  induction l generalizing i with
  | nil => rfl
  | cons x xs ih =>
    cases i with
    | zero => simp [listModify]
    | succ i => simp [listModify, ih]

/-- Modifying at `i` applies `f` at `i`. -/
theorem listModify_get_self (l : List α) (i : Nat) (f : α → α) :
    (listModify l i f).get? i = (l.get? i).map f := by
  induction l generalizing i with
  | nil => simp [listModify]
  | cons x xs ih =>
    cases i with
    | zero => simp [listModify]
    | succ i => simpa [listModify] using ih i

/-- Modifying at `i` leaves every other index unchanged. -/
theorem listModify_get_ne (l : List α) (i j : Nat) (f : α → α) (h : i ≠ j) :
    (listModify l i f).get? j = l.get? j := by
  induction l generalizing i j with
  | nil => simp [listModify]
  | cons x xs ih =>
    cases i with
    | zero =>
      cases j with
      | zero => exact absurd rfl h
      | succ j => simp [listModify]
    | succ i =>
      cases j with
      | zero => simp [listModify]
      | succ j => simpa [listModify] using ih i j (fun hh => h (by rw [hh]))

/-- Modifying the position after a prefix rewrites exactly the appended
element. -/
theorem listModify_append_last (pre : List α) (b : α) (f : α → α) :
    listModify (pre ++ [b]) pre.length f = pre ++ [f b] := by
  induction pre with
  | nil => simp [listModify]
  | cons x xs ih => simpa [listModify] using ih

/-! ### The nesting-level fold computes the structural array depth -/

set_option maxHeartbeats 1000000 in
/-- The `has_nested_dynamic_arrays` fold over a kind's token stream leaves
the level unchanged and raises the maximum to `level + arrDepth` (given the
visitor's component asserts, and starting from a state with
`level ≤ maxLevel`, which every reachable state satisfies). -/
theorem nested_fold : ∀ (k : ValueKind) (nm : List Char) (comps : List Field)
    (lvl maxl : Nat), compsAlign k comps = true → lvl ≤ maxl →
    (visitKind k nm comps).foldl nestedStep (lvl, maxl) =
      (lvl, max maxl (lvl + arrDepth k)) := by
  suffices H : ∀ (N : Nat) (k : ValueKind), sizeOf k ≤ N → ∀ (nm : List Char)
      (comps : List Field) (lvl maxl : Nat), compsAlign k comps = true →
      lvl ≤ maxl →
      (visitKind k nm comps).foldl nestedStep (lvl, maxl) =
        (lvl, max maxl (lvl + arrDepth k)) by
    exact fun k nm comps lvl maxl hc hl => H (sizeOf k) k le_rfl nm comps lvl maxl hc hl
  intro N
  induction N with
  | zero =>
    intro k hk
    exact absurd hk (by cases k <;> simp)
  | succ N ih =>
    intro k hk nm comps lvl maxl hc hl
    have Llist : ∀ (ks : List ValueKind) (comps : List Field) (lvl maxl : Nat),
        (∀ x ∈ ks, sizeOf x ≤ N) → compsAlignList ks comps = true → lvl ≤ maxl →
        (visitKindList ks comps).foldl nestedStep (lvl, maxl) =
          (lvl, max maxl (lvl + arrDepthList ks)) := by
      intro ks
      induction ks with
      | nil =>
        intro comps lvl maxl _ hc hl
        cases comps with
        | nil => simp [visitKindList, arrDepthList, Nat.max_eq_left hl]
        | cons f fs => simp [compsAlignList] at hc
      | cons k ks ihl =>
        intro comps lvl maxl hsz hc hl
        cases comps with
        | nil => simp [compsAlignList] at hc
        | cons f fs =>
          cases f with
          | mk fn fk fc =>
            simp only [compsAlignList, Bool.and_eq_true] at hc
            simp only [visitKindList, List.foldl_append]
            rw [ih k (hsz k (List.mem_cons_self k ks)) fn fc lvl maxl hc.1 hl]
            rw [ihl fs lvl (max maxl (lvl + arrDepth k))
              (fun y hy => hsz y (List.mem_cons_of_mem k hy)) hc.2 (by omega)]
            simp only [arrDepthList]
            congr 1
            omega
    cases k with
    | tuple ks =>
      simp only [compsAlign] at hc
      simp only [visitKind, arrDepth, List.foldl_cons, List.foldl_append]
      have hszl : ∀ x ∈ ks, sizeOf x ≤ N := by
        intro x hx
        have := List.sizeOf_lt_of_mem hx
        simp only [ValueKind.tuple.sizeOf_spec] at hk
        omega
      rw [show nestedStep (lvl, maxl) (.tupleStart nm) = (lvl, maxl) from rfl]
      rw [Llist ks comps lvl maxl hszl hc hl]
      rfl
    | fixedArray n k =>
      simp only [compsAlign] at hc
      have hszk : sizeOf k ≤ N := by
        simp only [ValueKind.fixedArray.sizeOf_spec] at hk
        omega
      have Lrep : ∀ (m : Nat) (lvl maxl : Nat), lvl ≤ maxl →
          ((List.replicate m (visitKind k nm comps)).flatten).foldl nestedStep
            (lvl, maxl) =
          (lvl, max maxl (lvl + (if m = 0 then 0 else arrDepth k))) := by
        intro m
        induction m with
        | zero =>
          intro lvl maxl hl
          simp [Nat.max_eq_left hl]
        | succ m ihm =>
          intro lvl maxl hl
          simp only [List.replicate_succ, List.flatten_cons, List.foldl_append]
          rw [ih k hszk nm comps lvl maxl hc hl]
          rw [ihm lvl (max maxl (lvl + arrDepth k)) (by omega)]
          congr 1
          cases m with
          | zero => simp
          | succ m => simp
      simp only [visitKind, arrDepth, List.foldl_cons, List.foldl_append]
      rw [show nestedStep (lvl, maxl) (.fixedArrayStart n nm) = (lvl, maxl) from rfl]
      rw [Lrep n lvl maxl hl]
      rfl
    | array k =>
      simp only [compsAlign] at hc
      have hszk : sizeOf k ≤ N := by
        simp only [ValueKind.array.sizeOf_spec] at hk
        omega
      simp only [visitKind, arrDepth, List.foldl_cons, List.foldl_append]
      rw [show nestedStep (lvl, maxl) (.arrayStart nm) =
        (lvl + 1, max maxl (lvl + 1)) from rfl]
      rw [ih k hszk nm comps (lvl + 1) (max maxl (lvl + 1)) hc (by omega)]
      show (lvl + 1 - 1, _) = _
      congr 1 <;> omega
    | int w => simp [visitKind, arrDepth, nestedStep, Nat.max_eq_left hl]
    | uint w => simp [visitKind, arrDepth, nestedStep, Nat.max_eq_left hl]
    | address => simp [visitKind, arrDepth, nestedStep, Nat.max_eq_left hl]
    | bool => simp [visitKind, arrDepth, nestedStep, Nat.max_eq_left hl]
    | fixedBytes n => simp [visitKind, arrDepth, nestedStep, Nat.max_eq_left hl]
    | function => simp [visitKind, arrDepth, nestedStep, Nat.max_eq_left hl]
    | bytes => simp [visitKind, arrDepth, nestedStep, Nat.max_eq_left hl]
    | string => simp [visitKind, arrDepth, nestedStep, Nat.max_eq_left hl]

/-- The nesting check of the source equals the structural depth condition. -/
theorem has_nested_eq_arrDepth (f : Field)
    (hc : compsAlign f.kind f.components = true) :
    has_nested_dynamic_arrays f = decide (arrDepth f.kind > 1) := by
  unfold has_nested_dynamic_arrays visitField
  rw [nested_fold f.kind f.name f.components 0 0 hc le_rfl]
  simp

set_option maxHeartbeats 1000000 in
/-- The token stream of an array-free kind contains no array brackets and
exactly `leafCountK k` leaf tokens. -/
theorem kind_toks_array_free : ∀ (k : ValueKind) (nm : List Char)
    (comps : List Field), arrDepth k = 0 → compsAlign k comps = true →
    (∀ t ∈ visitKind k nm comps, isArrayTok t = false) ∧
    (visitKind k nm comps).countP isLeafTok = leafCountK k := by
  suffices H : ∀ (N : Nat) (k : ValueKind), sizeOf k ≤ N → ∀ (nm : List Char)
      (comps : List Field), arrDepth k = 0 → compsAlign k comps = true →
      (∀ t ∈ visitKind k nm comps, isArrayTok t = false) ∧
      (visitKind k nm comps).countP isLeafTok = leafCountK k by
    exact fun k nm comps hd hc => H (sizeOf k) k le_rfl nm comps hd hc
  intro N
  induction N with
  | zero =>
    intro k hk
    exact absurd hk (by cases k <;> simp)
  | succ N ih =>
    intro k hk nm comps hd hc
    have Llist : ∀ (ks : List ValueKind) (comps : List Field),
        (∀ x ∈ ks, sizeOf x ≤ N) → arrDepthList ks = 0 →
        compsAlignList ks comps = true →
        (∀ t ∈ visitKindList ks comps, isArrayTok t = false) ∧
        (visitKindList ks comps).countP isLeafTok = leafCountKList ks := by
      intro ks
      induction ks with
      | nil =>
        intro comps _ _ hc
        cases comps with
        | nil => simp [visitKindList, leafCountKList]
        | cons f fs => simp [compsAlignList] at hc
      | cons k ks ihl =>
        intro comps hsz hd hc
        cases comps with
        | nil => simp [compsAlignList] at hc
        | cons f fs =>
          cases f with
          | mk fn fk fc =>
            simp only [compsAlignList, Bool.and_eq_true] at hc
            simp only [arrDepthList, Nat.max_eq_zero_iff] at hd
            have h1 := ih k (hsz k (List.mem_cons_self k ks)) fn fc hd.1 hc.1
            have h2 := ihl fs (fun y hy => hsz y (List.mem_cons_of_mem k hy))
              hd.2 hc.2
            simp only [visitKindList, List.countP_append, leafCountKList]
            exact ⟨by
              intro t ht
              rcases List.mem_append.mp ht with h | h
              · exact h1.1 t h
              · exact h2.1 t h, by rw [h1.2, h2.2]⟩
    cases k with
    | tuple ks =>
      simp only [compsAlign] at hc
      simp only [arrDepth] at hd
      have hszl : ∀ x ∈ ks, sizeOf x ≤ N := by
        intro x hx
        have := List.sizeOf_lt_of_mem hx
        simp only [ValueKind.tuple.sizeOf_spec] at hk
        omega
      have h := Llist ks comps hszl hd hc
      simp only [visitKind, leafCountK]
      refine ⟨?_, ?_⟩
      · intro t ht
        rcases List.mem_cons.mp ht with h' | h'
        · rw [h']; rfl
        · rcases List.mem_append.mp h' with h'' | h''
          · exact h.1 t h''
          · simp at h''
            rw [h'']; rfl
      · simp only [List.countP_cons, List.countP_append]
        rw [h.2]
        simp [isLeafTok]
    | fixedArray n k =>
      simp only [compsAlign] at hc
      simp only [arrDepth] at hd
      have hszk : sizeOf k ≤ N := by
        simp only [ValueKind.fixedArray.sizeOf_spec] at hk
        omega
      have Lrep : ∀ (m : Nat), arrDepth k = 0 →
          (∀ t ∈ (List.replicate m (visitKind k nm comps)).flatten,
            isArrayTok t = false) ∧
          ((List.replicate m (visitKind k nm comps)).flatten).countP isLeafTok =
            m * leafCountK k := by
        intro m hdk
        induction m with
        | zero => simp
        | succ m ihm =>
          have h := ih k hszk nm comps hdk hc
          simp only [List.replicate_succ, List.flatten_cons, List.countP_append]
          refine ⟨?_, ?_⟩
          · intro t ht
            rcases List.mem_append.mp ht with h' | h'
            · exact h.1 t h'
            · exact ihm.1 t h'
          · rw [h.2, ihm.2]
            ring
      cases n with
      | zero =>
        simp only [visitKind, leafCountK]
        refine ⟨?_, by simp [List.countP_cons, isLeafTok]⟩
        intro t ht
        rcases List.mem_cons.mp ht with h' | h'
        · rw [h']; rfl
        · simp at h'
          rw [h']; rfl
      | succ m =>
        have hdk : arrDepth k = 0 := by
          simp at hd
          exact hd
        have h := Lrep (m + 1) hdk
        simp only [visitKind, leafCountK]
        refine ⟨?_, ?_⟩
        · intro t ht
          rcases List.mem_cons.mp ht with h' | h'
          · rw [h']; rfl
          · rcases List.mem_append.mp h' with h'' | h''
            · exact h.1 t h''
            · simp at h''
              rw [h'']; rfl
        · simp only [List.countP_cons, List.countP_append]
          rw [h.2]
          simp [isLeafTok]
    | array k =>
      simp [arrDepth] at hd
    | int w => simp [visitKind, leafCountK, List.countP_cons, isLeafTok, isArrayTok]
    | uint w => simp [visitKind, leafCountK, List.countP_cons, isLeafTok, isArrayTok]
    | address => simp [visitKind, leafCountK, List.countP_cons, isLeafTok, isArrayTok]
    | bool => simp [visitKind, leafCountK, List.countP_cons, isLeafTok, isArrayTok]
    | fixedBytes n => simp [visitKind, leafCountK, List.countP_cons, isLeafTok, isArrayTok]
    | function => simp [visitKind, leafCountK, List.countP_cons, isLeafTok, isArrayTok]
    | bytes => simp [visitKind, leafCountK, List.countP_cons, isLeafTok, isArrayTok]
    | string => simp [visitKind, leafCountK, List.countP_cons, isLeafTok, isArrayTok]

set_option maxHeartbeats 1000000 in
/-- The value-token stream of a well-formed value of array-free kind
consists of plain value tokens only, one per type leaf. -/
theorem value_toks_array_free : ∀ (v : Value), Value.wf v = true →
    arrDepth (Value.kindOf v) = 0 →
    (∀ t ∈ visitValue v, isValueTok t = true) ∧
    (visitValue v).length = leafCountK (Value.kindOf v) := by
  suffices H : ∀ (N : Nat) (v : Value), sizeOf v ≤ N → Value.wf v = true →
      arrDepth (Value.kindOf v) = 0 →
      (∀ t ∈ visitValue v, isValueTok t = true) ∧
      (visitValue v).length = leafCountK (Value.kindOf v) by
    exact fun v hw hd => H (sizeOf v) v le_rfl hw hd
  intro N
  induction N with
  | zero =>
    intro v hv
    exact absurd hv (by cases v <;> simp)
  | succ N ih =>
    intro v hv hw hd
    have Ltuple : ∀ (vs : List Value), (∀ x ∈ vs, sizeOf x ≤ N) →
        Value.wfList vs = true → arrDepthList (Value.kindOfList vs) = 0 →
        (∀ t ∈ visitValueList vs, isValueTok t = true) ∧
        (visitValueList vs).length = leafCountKList (Value.kindOfList vs) := by
      intro vs
      induction vs with
      | nil => intro _ _ _; simp [visitValueList, Value.kindOfList, leafCountKList]
      | cons x xs ihl =>
        intro hsz hwl hdl
        simp only [Value.wfList, Bool.and_eq_true] at hwl
        simp only [Value.kindOfList, arrDepthList, Nat.max_eq_zero_iff] at hdl
        have h1 := ih x (hsz x (List.mem_cons_self x xs)) hwl.1 hdl.1
        have h2 := ihl (fun y hy => hsz y (List.mem_cons_of_mem x hy)) hwl.2 hdl.2
        simp only [visitValueList, Value.kindOfList, leafCountKList,
          List.length_append]
        refine ⟨?_, by rw [h1.2, h2.2]⟩
        intro t ht
        rcases List.mem_append.mp ht with h | h
        · exact h1.1 t h
        · exact h2.1 t h
    have Lhom : ∀ (vs : List Value) (k : ValueKind), (∀ x ∈ vs, sizeOf x ≤ N) →
        Value.wfElems k vs = true → arrDepth k = 0 →
        (∀ t ∈ visitValueList vs, isValueTok t = true) ∧
        (visitValueList vs).length = vs.length * leafCountK k := by
      intro vs k
      induction vs with
      | nil => intro _ _ _; simp [visitValueList]
      | cons x xs ihl =>
        intro hsz hwe hdk
        simp only [Value.wfElems, Bool.and_eq_true] at hwe
        have hkx : Value.kindOf x = k := ValueKind.eq_of_beq _ _ hwe.1.2
        have h1 := ih x (hsz x (List.mem_cons_self x xs)) hwe.1.1 (by rw [hkx]; exact hdk)
        have h2 := ihl (fun y hy => hsz y (List.mem_cons_of_mem x hy)) hwe.2 hdk
        simp only [visitValueList, List.length_append]
        refine ⟨?_, ?_⟩
        · intro t ht
          rcases List.mem_append.mp ht with h | h
          · exact h1.1 t h
          · exact h2.1 t h
        · rw [h1.2, h2.2, hkx, List.length_cons]
          ring
    cases v with
    | tuple vs =>
      simp only [Value.kindOf, visitValue, Value.wf] at *
      simp only [arrDepth] at hd
      exact Ltuple vs (by
        intro x hx
        have := List.sizeOf_lt_of_mem hx
        simp only [Value.tuple.sizeOf_spec] at hv
        omega) hw hd
    | fixedArray k vs =>
      simp only [Value.kindOf, visitValue, Value.wf] at *
      simp only [leafCountK]
      cases vs with
      | nil => simp [visitValueList]
      | cons x xs =>
        simp only [arrDepth, List.length_cons] at hd
        have hdk : arrDepth k = 0 := by
          simp at hd
          exact hd
        have h := Lhom (x :: xs) k (by
          intro y hy
          have := List.sizeOf_lt_of_mem hy
          simp only [Value.fixedArray.sizeOf_spec] at hv
          omega) hw hdk
        exact ⟨h.1, by rw [h.2]⟩
    | array k vs =>
      simp only [Value.kindOf, arrDepth] at hd
      omega
    | int w i =>
      exact ⟨by intro t ht; simp [visitValue] at ht; rw [ht]; rfl,
        by simp [visitValue, Value.kindOf, leafCountK]⟩
    | uint w u =>
      exact ⟨by intro t ht; simp [visitValue] at ht; rw [ht]; rfl,
        by simp [visitValue, Value.kindOf, leafCountK]⟩
    | address a =>
      exact ⟨by intro t ht; simp [visitValue] at ht; rw [ht]; rfl,
        by simp [visitValue, Value.kindOf, leafCountK]⟩
    | bool b =>
      exact ⟨by intro t ht; simp [visitValue] at ht; rw [ht]; rfl,
        by simp [visitValue, Value.kindOf, leafCountK]⟩
    | fixedBytes bs =>
      exact ⟨by intro t ht; simp [visitValue] at ht; rw [ht]; rfl,
        by simp [visitValue, Value.kindOf, leafCountK]⟩
    | function a s =>
      exact ⟨by intro t ht; simp [visitValue] at ht; rw [ht]; rfl,
        by simp [visitValue, Value.kindOf, leafCountK]⟩
    | bytes bs =>
      exact ⟨by intro t ht; simp [visitValue] at ht; rw [ht]; rfl,
        by simp [visitValue, Value.kindOf, leafCountK]⟩
    | string s =>
      exact ⟨by intro t ht; simp [visitValue] at ht; rw [ht]; rfl,
        by simp [visitValue, Value.kindOf, leafCountK]⟩

/-- The serialized values of a list of plain value tokens. -/
def sqlOfToks (toks : List VisitValue) : List SqlValue :=
  toks.filterMap fun t =>
    match t with
    | .value v => some (toSqlValue v)
    | _ => none

/-- On plain value tokens, serialization preserves the length. -/
theorem sqlOfToks_length (toks : List VisitValue)
    (h : ∀ t ∈ toks, isValueTok t = true) :
    (sqlOfToks toks).length = toks.length := by
  induction toks with
  | nil => rfl
  | cons t ts ih =>
    cases t with
    | value v =>
      simp only [sqlOfToks, List.filterMap_cons] at *
      simp only [List.length_cons]
      rw [ih (fun x hx => h x (List.mem_cons_of_mem _ hx))]
    | arrayStart n => exact absurd (h _ (List.mem_cons_self _ _)) (by simp [isValueTok])
    | arrayEnd => exact absurd (h _ (List.mem_cons_self _ _)) (by simp [isValueTok])

/-- Folding the binder over plain value tokens in array mode appends all the
serialized values to the last bucket. -/
theorem buckets_fold_values : ∀ (toks : List VisitValue)
    (pre : List (Option Nat × List SqlValue)) (a : Option Nat)
    (vals : List SqlValue), (∀ t ∈ toks, isValueTok t = true) →
    toks.foldl bucketsStep (pre ++ [(a, vals)], true) =
      (pre ++ [(a, vals ++ sqlOfToks toks)], true) := by
  intro toks
  induction toks with
  | nil => intro pre a vals _; simp [sqlOfToks]
  | cons t ts ih =>
    intro pre a vals h
    cases t with
    | value v =>
      simp only [List.foldl_cons]
      have hstep : bucketsStep (pre ++ [(a, vals)], true) (.value v) =
          (pre ++ [(a, vals ++ [toSqlValue v])], true) := by
        simp only [bucketsStep, if_pos]
        unfold pushLast
        rw [List.length_append]
        simp only [List.length_cons, List.length_nil]
        have : pre.length + 1 - 1 = pre.length := by omega
        rw [this, listModify_append_last]
      rw [hstep, ih pre a (vals ++ [toSqlValue v])
        (fun x hx => h x (List.mem_cons_of_mem _ hx))]
      simp [sqlOfToks, List.filterMap_cons, List.append_assoc]
    | arrayStart n => exact absurd (h _ (List.mem_cons_self _ _)) (by simp [isValueTok])
    | arrayEnd => exact absurd (h _ (List.mem_cons_self _ _)) (by simp [isValueTok])

/-- Folding the planner over array-free tokens while redirected into array
table `j` leaves the primary table, the redirection and all other tables
unchanged and appends one column per leaf token to table `j`. -/
theorem plan_fold_in_array : ∀ (toks : List VisitKind) (en : List Char)
    (p : Table) (arrs : List Table) (j : Nat),
    (∀ t ∈ toks, isArrayTok t = false) → j < arrs.length →
    ∃ arrs', toks.foldl (handleTok en) (p, arrs, some j) = (p, arrs', some j) ∧
      arrs'.length = arrs.length ∧
      (∀ i, i ≠ j → arrs'.get? i = arrs.get? i) ∧
      (∃ t t', arrs.get? j = some t ∧ arrs'.get? j = some t' ∧ t'.name = t.name ∧
        t'.columns.length = t.columns.length + toks.countP isLeafTok) := by
  intro toks
  induction toks with
  | nil =>
    intro en p arrs j _ hj
    obtain ⟨t0, ht0⟩ : ∃ t0, arrs.get? j = some t0 := by
      cases h : arrs.get? j with
      | some t0 => exact ⟨t0, rfl⟩
      | none => exact absurd (List.get?_eq_none.mp h) (by omega)
    exact ⟨arrs, rfl, rfl, fun i _ => rfl, t0, t0, ht0, ht0, rfl, by simp⟩
  | cons tk ts ih =>
    intro en p arrs j h hj
    have hts : ∀ t ∈ ts, isArrayTok t = false :=
      fun x hx => h x (List.mem_cons_of_mem tk hx)
    cases tk with
    | leaf k nm =>
      simp only [List.foldl_cons]
      have hstep : handleTok en (p, arrs, some j) (.leaf k nm) =
          (p, listModify arrs j (appendLeaf k nm), some j) := rfl
      rw [hstep]
      obtain ⟨arrs', h1, h2, h3, t1, t1', ht1, ht1', hnm, hlen⟩ :=
        ih en p (listModify arrs j (appendLeaf k nm)) j hts
          (by rw [listModify_length]; exact hj)
      refine ⟨arrs', h1, by rw [h2, listModify_length], ?_, ?_⟩
      · intro i hi
        rw [h3 i hi, listModify_get_ne _ _ _ _ (fun hh => hi hh.symm)]
      · obtain ⟨t0, ht0⟩ : ∃ t0, arrs.get? j = some t0 := by
          cases hq : arrs.get? j with
          | some t0 => exact ⟨t0, rfl⟩
          | none => exact absurd (List.get?_eq_none.mp hq) (by omega)
        refine ⟨t0, t1', ht0, ht1', ?_, ?_⟩
        · rw [hnm]
          rw [listModify_get_self, ht0] at ht1
          simp only [Option.map_some'] at ht1
          cases ht1
          rfl
        · rw [listModify_get_self, ht0] at ht1
          simp only [Option.map_some'] at ht1
          rw [hlen]
          cases ht1
          simp only [appendLeaf, List.length_append, List.length_cons,
            List.length_nil, List.countP_cons]
          simp [isLeafTok]
          omega
    | tupleStart nm =>
      simp only [List.foldl_cons]
      exact ih en p arrs j hts hj
    | tupleEnd =>
      simp only [List.foldl_cons]
      exact ih en p arrs j hts hj
    | fixedArrayStart n nm =>
      simp only [List.foldl_cons]
      exact ih en p arrs j hts hj
    | fixedArrayEnd =>
      simp only [List.foldl_cons]
      exact ih en p arrs j hts hj
    | arrayStart nm => exact absurd (h _ (List.mem_cons_self _ _)) (by simp [isArrayTok])
    | arrayEnd => exact absurd (h _ (List.mem_cons_self _ _)) (by simp [isArrayTok])

/-- Correspondence between the completed array buckets of the binder and the
array tables of the planner: pairwise, the bucket is `(Some n, vals)` with
exactly `n` times the table's column count of values. -/
def BucketCorr (abs : List (Option Nat × List SqlValue)) (arrs : List Table) : Prop :=
  abs.length = arrs.length ∧
  ∀ pr ∈ abs.zip arrs, ∃ n vals, pr.1 = (some n, vals) ∧
    vals.length = n * pr.2.columns.length

/-- Every token of a concatenated value visit comes from one of the
values. -/
theorem mem_visitValueList (vs : List Value) (t : VisitValue)
    (h : t ∈ visitValueList vs) : ∃ x ∈ vs, t ∈ visitValue x := by
  induction vs with
  | nil => simp [visitValueList] at h
  | cons x xs ih =>
    simp only [visitValueList] at h
    rcases List.mem_append.mp h with h' | h'
    · exact ⟨x, List.mem_cons_self x xs, h'⟩
    · obtain ⟨y, hy, ht⟩ := ih h'
      exact ⟨y, List.mem_cons_of_mem x hy, ht⟩

/-- Homogeneous well-formed values of an array-free kind visit to plain
value tokens, `leafCountK k` of them per element. -/
theorem visitValueList_hom (k : ValueKind) : ∀ (vs : List Value),
    Value.wfElems k vs = true → arrDepth k = 0 →
    (∀ t ∈ visitValueList vs, isValueTok t = true) ∧
    (visitValueList vs).length = vs.length * leafCountK k := by
  intro vs
  induction vs with
  | nil => intro _ _; simp [visitValueList]
  | cons x xs ih =>
    intro hwe hdk
    simp only [Value.wfElems, Bool.and_eq_true] at hwe
    have hkx : Value.kindOf x = k := ValueKind.eq_of_beq _ _ hwe.1.2
    have h1 := value_toks_array_free x hwe.1.1 (by rw [hkx]; exact hdk)
    have h2 := ih hwe.2 hdk
    simp only [visitValueList, List.length_append]
    refine ⟨?_, ?_⟩
    · intro t ht
      rcases List.mem_append.mp ht with h | h
      · exact h1.1 t h
      · exact h2.1 t h
    · rw [h1.2, h2.2, hkx, List.length_cons]
      ring

set_option maxHeartbeats 1600000 in
/-- Main correspondence step: processing one well-formed value (whose kind
has no nested dynamic arrays) through the planner fold and the binder fold,
starting outside arrays from corresponding states, ends outside arrays in
corresponding states: the primary bucket keeps exactly one value per primary
column and every completed array bucket keeps `n` times its table's column
count of values. -/
theorem planner_binder_step : ∀ (v : Value) (nm : List Char)
    (comps : List Field) (en : List Char) (p : Table) (arrs : List Table)
    (pv : List SqlValue) (abs : List (Option Nat × List SqlValue)),
    Value.wf v = true → compsAlign (Value.kindOf v) comps = true →
    arrDepth (Value.kindOf v) ≤ 1 →
    pv.length = p.columns.length → BucketCorr abs arrs →
    ∃ (p' : Table) (arrs' : List Table) (pv' : List SqlValue)
      (abs' : List (Option Nat × List SqlValue)),
      (visitKind (Value.kindOf v) nm comps).foldl (handleTok en) (p, arrs, none) =
        (p', arrs', none) ∧
      (visitValue v).foldl bucketsStep ((none, pv) :: abs, false) =
        ((none, pv') :: abs', false) ∧
      pv'.length = p'.columns.length ∧ BucketCorr abs' arrs' := by
  suffices H : ∀ (N : Nat) (v : Value), sizeOf v ≤ N → ∀ (nm : List Char)
      (comps : List Field) (en : List Char) (p : Table) (arrs : List Table)
      (pv : List SqlValue) (abs : List (Option Nat × List SqlValue)),
      Value.wf v = true → compsAlign (Value.kindOf v) comps = true →
      arrDepth (Value.kindOf v) ≤ 1 →
      pv.length = p.columns.length → BucketCorr abs arrs →
      ∃ p' arrs' pv' abs',
        (visitKind (Value.kindOf v) nm comps).foldl (handleTok en) (p, arrs, none) =
          (p', arrs', none) ∧
        (visitValue v).foldl bucketsStep ((none, pv) :: abs, false) =
          ((none, pv') :: abs', false) ∧
        pv'.length = p'.columns.length ∧ BucketCorr abs' arrs' by
    exact fun v nm comps en p arrs pv abs hw hc hd hpv hcorr =>
      H (sizeOf v) v le_rfl nm comps en p arrs pv abs hw hc hd hpv hcorr
  intro N
  induction N with
  | zero =>
    intro v hv
    exact absurd hv (by cases v <;> simp)
  | succ N ih =>
    intro v hv nm comps en p arrs pv abs hw hc hd hpv hcorr
    have Llist : ∀ (vs : List Value) (comps : List Field) (p : Table)
        (arrs : List Table) (pv : List SqlValue)
        (abs : List (Option Nat × List SqlValue)),
        (∀ x ∈ vs, sizeOf x ≤ N) → Value.wfList vs = true →
        compsAlignList (Value.kindOfList vs) comps = true →
        arrDepthList (Value.kindOfList vs) ≤ 1 →
        pv.length = p.columns.length → BucketCorr abs arrs →
        ∃ p' arrs' pv' abs',
          (visitKindList (Value.kindOfList vs) comps).foldl (handleTok en)
            (p, arrs, none) = (p', arrs', none) ∧
          (visitValueList vs).foldl bucketsStep ((none, pv) :: abs, false) =
            ((none, pv') :: abs', false) ∧
          pv'.length = p'.columns.length ∧ BucketCorr abs' arrs' := by
      intro vs
      induction vs with
      | nil =>
        intro comps p arrs pv abs _ _ hcl _ hpv hco
        cases comps with
        | nil => exact ⟨p, arrs, pv, abs, rfl, rfl, hpv, hco⟩
        | cons f fs => simp [Value.kindOfList, compsAlignList] at hcl
      | cons x xs ihl =>
        intro comps p arrs pv abs hsz hwl hcl hdl hpv hco
        cases comps with
        | nil => simp [Value.kindOfList, compsAlignList] at hcl
        | cons f fs =>
          cases f with
          | mk fn fk fc =>
            simp only [Value.kindOfList, compsAlignList, Bool.and_eq_true] at hcl
            simp only [Value.wfList, Bool.and_eq_true] at hwl
            simp only [Value.kindOfList, arrDepthList] at hdl
            obtain ⟨p1, arrs1, pv1, abs1, hk1, hv1, hl1, hc1⟩ :=
              ih x (hsz x (List.mem_cons_self x xs)) fn fc en p arrs pv abs
                hwl.1 hcl.1 (by omega) hpv hco
            obtain ⟨p2, arrs2, pv2, abs2, hk2, hv2, hl2, hc2⟩ :=
              ihl fs p1 arrs1 pv1 abs1
                (fun y hy => hsz y (List.mem_cons_of_mem x hy)) hwl.2 hcl.2
                (by omega) hl1 hc1
            refine ⟨p2, arrs2, pv2, abs2, ?_, ?_, hl2, hc2⟩
            · simp only [Value.kindOfList, visitKindList, List.foldl_append,
                hk1, hk2]
            · simp only [visitValueList, List.foldl_append, hv1, hv2]
    have Lhom : ∀ (vs : List Value) (k : ValueKind) (nm' : List Char)
        (comps' : List Field) (p : Table) (arrs : List Table)
        (pv : List SqlValue) (abs : List (Option Nat × List SqlValue)),
        (∀ x ∈ vs, sizeOf x ≤ N) → Value.wfElems k vs = true →
        compsAlign k comps' = true → arrDepth k ≤ 1 →
        pv.length = p.columns.length → BucketCorr abs arrs →
        ∃ p' arrs' pv' abs',
          ((List.replicate vs.length (visitKind k nm' comps')).flatten).foldl
            (handleTok en) (p, arrs, none) = (p', arrs', none) ∧
          (visitValueList vs).foldl bucketsStep ((none, pv) :: abs, false) =
            ((none, pv') :: abs', false) ∧
          pv'.length = p'.columns.length ∧ BucketCorr abs' arrs' := by
      intro vs k nm' comps'
      induction vs with
      | nil =>
        intro p arrs pv abs _ _ _ _ hpv hco
        exact ⟨p, arrs, pv, abs, rfl, rfl, hpv, hco⟩
      | cons x xs ihl =>
        intro p arrs pv abs hsz hwe hca hdk hpv hco
        simp only [Value.wfElems, Bool.and_eq_true] at hwe
        have hkx : Value.kindOf x = k := ValueKind.eq_of_beq _ _ hwe.1.2
        obtain ⟨p1, arrs1, pv1, abs1, hk1, hv1, hl1, hc1⟩ :=
          ih x (hsz x (List.mem_cons_self x xs)) nm' comps' en p arrs pv abs
            hwe.1.1 (by rw [hkx]; exact hca) (by rw [hkx]; exact hdk) hpv hco
        obtain ⟨p2, arrs2, pv2, abs2, hk2, hv2, hl2, hc2⟩ :=
          ihl p1 arrs1 pv1 abs1 (fun y hy => hsz y (List.mem_cons_of_mem x hy))
            hwe.2 hca hdk hl1 hc1
        refine ⟨p2, arrs2, pv2, abs2, ?_, ?_, hl2, hc2⟩
        · simp only [List.length_cons, List.replicate_succ, List.flatten_cons,
            List.foldl_append]
          rw [hkx] at hk1
          rw [hk1, hk2]
        · simp only [visitValueList, List.foldl_append, hv1, hv2]
    cases v with
    | tuple vs =>
      simp only [Value.kindOf, Value.wf] at hw hc hd ⊢
      simp only [compsAlign] at hc
      simp only [arrDepth] at hd
      obtain ⟨p', arrs', pv', abs', hk, hvv, hl, hco⟩ :=
        Llist vs comps p arrs pv abs (by
          intro x hx
          have := List.sizeOf_lt_of_mem hx
          simp only [Value.tuple.sizeOf_spec] at hv
          omega) hw hc hd hpv hcorr
      refine ⟨p', arrs', pv', abs', ?_, ?_, hl, hco⟩
      · simp only [visitKind, List.foldl_cons, List.foldl_append]
        rw [show handleTok en (p, arrs, none) (.tupleStart nm) = (p, arrs, none)
          from rfl]
        rw [hk]
        rfl
      · simpa [visitValue] using hvv
    | fixedArray k vs =>
      simp only [Value.kindOf, Value.wf] at hw hc hd ⊢
      simp only [compsAlign] at hc
      simp only [arrDepth] at hd
      cases vs with
      | nil =>
        refine ⟨p, arrs, pv, abs, ?_, rfl, hpv, hcorr⟩
        simp only [visitKind, List.length_nil, List.replicate_zero,
          List.flatten_nil, List.nil_append, List.foldl_cons, List.foldl_nil]
        rfl
      | cons y ys =>
        have hdk : arrDepth k ≤ 1 := by simpa using hd
        obtain ⟨p', arrs', pv', abs', hk, hvv, hl, hco⟩ :=
          Lhom (y :: ys) k nm comps p arrs pv abs (by
            intro x hx
            have := List.sizeOf_lt_of_mem hx
            simp only [Value.fixedArray.sizeOf_spec] at hv
            omega) hw hc hdk hpv hcorr
        refine ⟨p', arrs', pv', abs', ?_, ?_, hl, hco⟩
        · simp only [visitKind, List.foldl_cons, List.foldl_append]
          rw [show handleTok en (p, arrs, none)
            (.fixedArrayStart (y :: ys).length nm) = (p, arrs, none) from rfl]
          rw [hk]
          rfl
        · simpa [visitValue] using hvv
    | array k vs =>
      simp only [Value.kindOf, Value.wf] at hw hc hd ⊢
      simp only [compsAlign] at hc
      have hdk : arrDepth k = 0 := by
        simp only [arrDepth] at hd
        omega
      have hKL := kind_toks_array_free k nm comps hdk hc
      have hIL := visitValueList_hom k vs hw hdk
      obtain ⟨arrs2, hfold, hlen2, hne2, t0, t', ht0, ht', htn, htl⟩ :=
        plan_fold_in_array (visitKind k nm comps) en p
          (arrs ++ [arrayTableInit en nm arrs.length]) arrs.length hKL.1 (by simp)
      have ht0' : t0 = arrayTableInit en nm arrs.length := by
        rw [List.get?_concat_length] at ht0
        cases ht0
        rfl
      have htlen : t'.columns.length = leafCountK k := by
        rw [htl, ht0', hKL.2]
        simp [arrayTableInit]
      have harrs2 : arrs2 = arrs ++ [t'] := by
        apply List.ext_get?
        intro i
        by_cases hij : i = arrs.length
        · rw [hij, ht', List.get?_concat_length]
        · rw [hne2 i hij]
          by_cases hlt : i < arrs.length
          · rw [List.get?_append hlt, List.get?_append hlt]
          · have h1 : (arrs ++ [arrayTableInit en nm arrs.length]).get? i = none := by
              rw [List.get?_eq_none]
              simp
              omega
            have h2 : (arrs ++ [t']).get? i = none := by
              rw [List.get?_eq_none]
              simp
              omega
            rw [h1, h2]
      have hfoldV := buckets_fold_values (visitValueList vs)
        ((none, pv) :: abs) (some vs.length) [] hIL.1
      have hsqllen : (sqlOfToks (visitValueList vs)).length =
          vs.length * leafCountK k := by
        rw [sqlOfToks_length _ hIL.1, hIL.2]
      refine ⟨p, arrs ++ [t'], pv,
        abs ++ [(some vs.length, sqlOfToks (visitValueList vs))], ?_, ?_, hpv, ?_⟩
      · show List.foldl (handleTok en) (p, arrs, none)
          (.arrayStart nm :: (visitKind k nm comps ++ [.arrayEnd])) = _
        rw [List.foldl_cons]
        rw [show handleTok en (p, arrs, none) (.arrayStart nm) =
          (p, arrs ++ [arrayTableInit en nm arrs.length], some arrs.length) from rfl]
        rw [List.foldl_append, hfold]
        rw [show List.foldl (handleTok en) (p, arrs2, some arrs.length)
          [VisitKind.arrayEnd] = (p, arrs2, none) from rfl]
        rw [harrs2]
      · show List.foldl bucketsStep ((none, pv) :: abs, false)
          (.arrayStart vs.length :: (visitValueList vs ++ [.arrayEnd])) = _
        rw [List.foldl_cons]
        rw [show bucketsStep ((none, pv) :: abs, false) (.arrayStart vs.length) =
          (((none, pv) :: abs) ++ [(some vs.length, [])], true) from rfl]
        rw [List.foldl_append, hfoldV]
        rw [show List.foldl bucketsStep
          (((none, pv) :: abs) ++
            [(some vs.length, [] ++ sqlOfToks (visitValueList vs))], true)
          [VisitValue.arrayEnd] =
          (((none, pv) :: abs) ++
            [(some vs.length, [] ++ sqlOfToks (visitValueList vs))], false)
          from rfl]
        simp
      · constructor
        · have hc1 := hcorr.1
          simp only [List.length_append, List.length_cons, List.length_nil]
          omega
        · intro pr hpr
          rw [List.zip_append (by simpa using hcorr.1)] at hpr
          rcases List.mem_append.mp hpr with h | h
          · exact hcorr.2 pr h
          · simp only [List.zip_cons_cons, List.zip_nil_right,
              List.mem_singleton] at h
            rw [h]
            exact ⟨vs.length, sqlOfToks (visitValueList vs), rfl, by
              rw [hsqllen, htlen]⟩
    | int w i =>
      refine ⟨appendLeaf (.int w) nm p, arrs, pv ++ [toSqlValue (.int w i)], abs,
        ?_, ?_, by simp [appendLeaf, hpv], hcorr⟩
      · simp only [Value.kindOf, visitKind, List.foldl_cons, List.foldl_nil]
        rfl
      · simp only [visitValue, List.foldl_cons, List.foldl_nil]
        rfl
    | uint w u =>
      refine ⟨appendLeaf (.uint w) nm p, arrs, pv ++ [toSqlValue (.uint w u)], abs,
        ?_, ?_, by simp [appendLeaf, hpv], hcorr⟩
      · simp only [Value.kindOf, visitKind, List.foldl_cons, List.foldl_nil]
        rfl
      · simp only [visitValue, List.foldl_cons, List.foldl_nil]
        rfl
    | address a =>
      refine ⟨appendLeaf .address nm p, arrs, pv ++ [toSqlValue (.address a)], abs,
        ?_, ?_, by simp [appendLeaf, hpv], hcorr⟩
      · simp only [Value.kindOf, visitKind, List.foldl_cons, List.foldl_nil]
        rfl
      · simp only [visitValue, List.foldl_cons, List.foldl_nil]
        rfl
    | bool b =>
      refine ⟨appendLeaf .bool nm p, arrs, pv ++ [toSqlValue (.bool b)], abs,
        ?_, ?_, by simp [appendLeaf, hpv], hcorr⟩
      · simp only [Value.kindOf, visitKind, List.foldl_cons, List.foldl_nil]
        rfl
      · simp only [visitValue, List.foldl_cons, List.foldl_nil]
        rfl
    | fixedBytes bs =>
      refine ⟨appendLeaf (.fixedBytes bs.length) nm p, arrs,
        pv ++ [toSqlValue (.fixedBytes bs)], abs,
        ?_, ?_, by simp [appendLeaf, hpv], hcorr⟩
      · simp only [Value.kindOf, visitKind, List.foldl_cons, List.foldl_nil]
        rfl
      · simp only [visitValue, List.foldl_cons, List.foldl_nil]
        rfl
    | function a s =>
      refine ⟨appendLeaf .function nm p, arrs, pv ++ [toSqlValue (.function a s)], abs,
        ?_, ?_, by simp [appendLeaf, hpv], hcorr⟩
      · simp only [Value.kindOf, visitKind, List.foldl_cons, List.foldl_nil]
        rfl
      · simp only [visitValue, List.foldl_cons, List.foldl_nil]
        rfl
    | bytes bs =>
      refine ⟨appendLeaf .bytes nm p, arrs, pv ++ [toSqlValue (.bytes bs)], abs,
        ?_, ?_, by simp [appendLeaf, hpv], hcorr⟩
      · simp only [Value.kindOf, visitKind, List.foldl_cons, List.foldl_nil]
        rfl
      · simp only [visitValue, List.foldl_cons, List.foldl_nil]
        rfl
    | string s =>
      refine ⟨appendLeaf .string nm p, arrs, pv ++ [toSqlValue (.string s)], abs,
        ?_, ?_, by simp [appendLeaf, hpv], hcorr⟩
      · simp only [Value.kindOf, visitKind, List.foldl_cons, List.foldl_nil]
        rfl
      · simp only [visitValue, List.foldl_cons, List.foldl_nil]
        rfl

/-- Decidable equality of `Except` results, used to evaluate the model on
concrete inputs. -/
instance {ε α : Type} [DecidableEq ε] [DecidableEq α] : DecidableEq (Except ε α) :=
  fun a b =>
    match a, b with
    | .ok x, .ok y => decidable_of_iff (x = y) (by simp)
    | .error e, .error f => decidable_of_iff (e = f) (by simp)
    | .ok _, .error _ => isFalse (by simp)
    | .error _, .ok _ => isFalse (by simp)

/-- Folding the planner over all input fields and the binder over all field
values, from corresponding states, yields corresponding states (inputs and
values paired by kind). -/
theorem planner_binder_inputs : ∀ (inputs : List EventField) (fields : List Value)
    (en : List Char) (p : Table) (arrs : List Table) (pv : List SqlValue)
    (abs : List (Option Nat × List SqlValue)),
    Value.wfList fields = true →
    Value.kindOfList fields = inputs.map (fun i => i.field.kind) →
    (∀ i ∈ inputs, compsAlign i.field.kind i.field.components = true) →
    (∀ i ∈ inputs, arrDepth i.field.kind ≤ 1) →
    pv.length = p.columns.length → BucketCorr abs arrs →
    ∃ pv' abs',
      (visitValueList fields).foldl bucketsStep ((none, pv) :: abs, false) =
        ((none, pv') :: abs', false) ∧
      pv'.length = (inputs.foldl
        (fun (acc : Table × List Table) i => handleField en acc.1 acc.2 i.field)
        (p, arrs)).1.columns.length ∧
      BucketCorr abs' (inputs.foldl
        (fun (acc : Table × List Table) i => handleField en acc.1 acc.2 i.field)
        (p, arrs)).2 := by
  intro inputs
  induction inputs with
  | nil =>
    intro fields en p arrs pv abs hwf hkinds _ _ hpv hcorr
    cases fields with
    | nil => exact ⟨pv, abs, rfl, hpv, hcorr⟩
    | cons v vs => simp [Value.kindOfList] at hkinds
  | cons i is ihl =>
    intro fields en p arrs pv abs hwf hkinds hcomps hdepths hpv hcorr
    cases fields with
    | nil => simp [Value.kindOfList] at hkinds
    | cons v vs =>
      simp only [Value.kindOfList, List.map_cons, List.cons.injEq] at hkinds
      simp only [Value.wfList, Bool.and_eq_true] at hwf
      obtain ⟨p1, arrs1, pv1, abs1, hk1, hv1, hl1, hc1⟩ :=
        planner_binder_step v i.field.name i.field.components en p arrs pv abs
          hwf.1 (by rw [hkinds.1]; exact hcomps i (List.mem_cons_self i is))
          (by rw [hkinds.1]; exact hdepths i (List.mem_cons_self i is)) hpv hcorr
      obtain ⟨pv2, abs2, hv2, hl2, hc2⟩ :=
        ihl vs en p1 arrs1 pv1 abs1 hwf.2 hkinds.2
          (fun j hj => hcomps j (List.mem_cons_of_mem i hj))
          (fun j hj => hdepths j (List.mem_cons_of_mem i hj)) hl1 hc1
      refine ⟨pv2, abs2, ?_, ?_, ?_⟩
      · simp only [visitValueList, List.foldl_append, hv1, hv2]
      · have hstep : handleField en p arrs i.field = (p1, arrs1) := by
          unfold handleField visitField
          rw [← hkinds.1] at *
          rw [hk1]
        simp only [List.foldl_cons, hstep]
        exact hl2
      · have hstep : handleField en p arrs i.field = (p1, arrs1) := by
          unfold handleField visitField
          rw [← hkinds.1] at *
          rw [hk1]
        simp only [List.foldl_cons, hstep]
        exact hc2

/-- Core bucket-table correspondence for one log: if the schema planner
accepted the event and the log fields are well-formed with exactly the
declared input kinds, the binder produces the primary bucket first (no
element count, one value per primary-table column) followed by one completed
bucket per array table. -/
theorem store_event_buckets (name : List Char) (event : EventDescriptor)
    (tables : Tables) (fields : List Value)
    (hplan : event_to_tables name event = .ok tables)
    (hwf : Value.wfList fields = true)
    (hkinds : Value.kindOfList fields = event.inputs.map (fun i => i.field.kind))
    (hcomps : ∀ i ∈ event.inputs, compsAlign i.field.kind i.field.components = true) :
    ∃ pv abs, buildBuckets fields = (none, pv) :: abs ∧
      pv.length = tables.primary.columns.length ∧
      BucketCorr abs tables.dynamicArrays := by
  unfold event_to_tables at hplan
  split at hplan
  · exact absurd hplan (by simp)
  · split at hplan
    · exact absurd hplan (by simp)
    · split at hplan
      · exact absurd hplan (by simp)
      · next hnest =>
        have hdepths : ∀ i ∈ event.inputs, arrDepth i.field.kind ≤ 1 := by
          intro i hi
          have hfalse : has_nested_dynamic_arrays i.field = false := by
            have h' := Bool.eq_false_iff.mpr hnest
            rw [List.any_eq_false] at h'
            exact Bool.eq_false_iff.mpr (h' i hi)
          rw [has_nested_eq_arrDepth i.field (hcomps i hi)] at hfalse
          simpa using hfalse
        obtain ⟨pv', abs', hfold, hlen, hcorr⟩ :=
          planner_binder_inputs event.inputs fields name
            { name := name, columns := [] } [] [] [] hwf hkinds hcomps hdepths
            rfl ⟨rfl, by intro pr hpr; simp at hpr⟩
        refine ⟨pv', abs', ?_, ?_, ?_⟩
        · unfold buildBuckets
          rw [hfold]
        · rw [hlen]
          cases hplan
          rfl
        · cases hplan
          exact hcorr

/-- The insert-loop assert `statement.fields * array_element_count =
values.len()` pairwise, derived from the correspondence. -/
theorem corr_assert : ∀ (abs : List (Option Nat × List SqlValue))
    (arrs : List Table), BucketCorr abs arrs →
    ∀ pr ∈ (arrs.map (fun a => a.columns.length)).zip abs,
      pr.1 * ((pr.2).1.getD 1) = (pr.2).2.length := by
  intro abs
  induction abs with
  | nil =>
    intro arrs _ pr hpr
    simp [List.zip_nil_right] at hpr
  | cons b abs ih =>
    intro arrs hcorr pr hpr
    cases arrs with
    | nil => simp at hpr
    | cons t arrs =>
      simp only [List.map_cons, List.zip_cons_cons, List.mem_cons] at hpr
      rcases hpr with h | h
      · obtain ⟨n, vals, hb, hlen⟩ := hcorr.2 (b, t) (by simp)
        have hb' : b = (some n, vals) := hb
        have hlen' : vals.length = n * t.columns.length := hlen
        rw [h]
        show t.columns.length * (b.1.getD 1) = b.2.length
        rw [hb']
        simp only [Option.getD_some]
        show t.columns.length * n = vals.length
        rw [hlen']
        ring
      · apply ih arrs ?_ pr h
        constructor
        · have h1 := hcorr.1
          simp only [List.length_cons] at h1
          omega
        · intro q hq
          exact hcorr.2 q (by simp [hq])

/-- C10: for a log whose fields pass the validation of `update` (field count
and kinds equal to the descriptor inputs), the binder's buckets satisfy the
internal consistency assert of `store_event`: the primary bucket (no element
count) holds exactly the primary table's column count of values, each array
bucket holds exactly its table's column count times its element count, so
`statement.fields * array_element_count == values.len()` holds for every
`(statement, bucket)` pair, the insert loop never panics, and every bound
row carries exactly `4 + (1 if array table) + statement.fields` SQL
parameters. -/
theorem store_event_bucket_sizes (name : List Char) (event : EventDescriptor)
    (tables : Tables) (fields : List Value) (bn li ti : Nat) (addr : List Nat)
    (hplan : event_to_tables name event = .ok tables)
    (hwf : Value.wfList fields = true)
    (hkinds : Value.kindOfList fields = event.inputs.map (fun i => i.field.kind))
    (hcomps : ∀ i ∈ event.inputs, compsAlign i.field.kind i.field.components = true) :
    ∃ pv abs, buildBuckets fields = (none, pv) :: abs ∧
      pv.length = tables.primary.columns.length ∧
      abs.length = tables.dynamicArrays.length ∧
      (∀ pr ∈ (insertFieldCounts tables).zip (buildBuckets fields),
        pr.1 * ((pr.2).1.getD 1) = (pr.2).2.length) ∧
      (∀ pr ∈ (insertFieldCounts tables).zip (buildBuckets fields),
        ∀ r ∈ emitTableRows pr.1 (fixedColumns bn li ti addr) pr.2,
          r.length = 4 + (if (pr.2).1.isSome then 1 else 0) + pr.1) := by
  obtain ⟨pv, abs, hb, hpv, hcorr⟩ :=
    store_event_buckets name event tables fields hplan hwf hkinds hcomps
  have hassert : ∀ pr ∈ (insertFieldCounts tables).zip (buildBuckets fields),
      pr.1 * ((pr.2).1.getD 1) = (pr.2).2.length := by
    intro pr hpr
    rw [hb] at hpr
    unfold insertFieldCounts at hpr
    simp only [List.zip_cons_cons, List.mem_cons] at hpr
    rcases hpr with h | h
    · rw [h]
      simpa using hpv.symm
    · exact corr_assert abs tables.dynamicArrays hcorr pr h
  refine ⟨pv, abs, hb, hpv, hcorr.1, hassert, ?_⟩
  intro pr hpr r hr
  have hsz := hassert pr hpr
  unfold emitTableRows at hr
  obtain ⟨i, hi, hrow⟩ := List.mem_map.mp hr
  rw [List.mem_range] at hi
  have hslice : (((pr.2).2.drop (i * pr.1)).take pr.1).length = pr.1 := by
    simp only [List.length_take, List.length_drop]
    have h1 : (i + 1) * pr.1 ≤ (pr.2).2.length := by
      rw [← hsz]
      have h2 : (i + 1) ≤ ((pr.2).1.getD 1) := hi
      calc (i + 1) * pr.1 ≤ ((pr.2).1.getD 1) * pr.1 :=
            Nat.mul_le_mul_right _ h2
        _ = pr.1 * ((pr.2).1.getD 1) := Nat.mul_comm _ _
    have h3 : i * pr.1 + pr.1 ≤ (pr.2).2.length := by
      calc i * pr.1 + pr.1 = (i + 1) * pr.1 := by ring
        _ ≤ (pr.2).2.length := h1
    omega
  rw [← hrow]
  simp only [List.length_append, hslice, fixedColumns, List.length_cons,
    List.length_nil]
  cases hs : (pr.2).1 <;> simp [hs]

/-- Witness for C10 at a concrete event `Event(bool b, bool[])` and one
log with fields `[true, [false]]`. -/
theorem store_event_bucket_sizes_witness :
    ∃ pv abs,
      buildBuckets [Value.bool true, Value.array .bool [.bool false]] =
        (none, pv) :: abs ∧
      pv.length = (Tables.mk (Table.mk ['e', 'v', 't']
          [Column.mk .bool ['b', '_', '0']])
        [Table.mk ['e', 'v', 't', '_', 'a', 'r', 'r', 'a', 'y', '_', '0']
          [Column.mk .bool ['f', 'i', 'e', 'l', 'd', '_', '0']]]).primary.columns.length ∧
      abs.length = (Tables.mk (Table.mk ['e', 'v', 't']
          [Column.mk .bool ['b', '_', '0']])
        [Table.mk ['e', 'v', 't', '_', 'a', 'r', 'r', 'a', 'y', '_', '0']
          [Column.mk .bool ['f', 'i', 'e', 'l', 'd', '_', '0']]]).dynamicArrays.length ∧
      (∀ pr ∈ (insertFieldCounts (Tables.mk (Table.mk ['e', 'v', 't']
          [Column.mk .bool ['b', '_', '0']])
        [Table.mk ['e', 'v', 't', '_', 'a', 'r', 'r', 'a', 'y', '_', '0']
          [Column.mk .bool ['f', 'i', 'e', 'l', 'd', '_', '0']]])).zip
          (buildBuckets [Value.bool true, Value.array .bool [.bool false]]),
        pr.1 * ((pr.2).1.getD 1) = (pr.2).2.length) ∧
      (∀ pr ∈ (insertFieldCounts (Tables.mk (Table.mk ['e', 'v', 't']
          [Column.mk .bool ['b', '_', '0']])
        [Table.mk ['e', 'v', 't', '_', 'a', 'r', 'r', 'a', 'y', '_', '0']
          [Column.mk .bool ['f', 'i', 'e', 'l', 'd', '_', '0']]])).zip
          (buildBuckets [Value.bool true, Value.array .bool [.bool false]]),
        ∀ r ∈ emitTableRows pr.1 (fixedColumns 1 2 3 [4]) pr.2,
          r.length = 4 + (if (pr.2).1.isSome then 1 else 0) + pr.1) :=
  store_event_bucket_sizes ['e', 'v', 't']
    (EventDescriptor.mk ['E'] [EventField.mk (Field.mk ['b'] .bool []) false,
      EventField.mk (Field.mk [] (.array .bool) []) false])
    (Tables.mk (Table.mk ['e', 'v', 't'] [Column.mk .bool ['b', '_', '0']])
      [Table.mk ['e', 'v', 't', '_', 'a', 'r', 'r', 'a', 'y', '_', '0']
        [Column.mk .bool ['f', 'i', 'e', 'l', 'd', '_', '0']]])
    [Value.bool true, Value.array .bool [.bool false]] 1 2 3 [4]
    (by decide) (by decide) (by decide) (by decide)

/-- Pairwise form of the correspondence keyed by the table column counts. -/
theorem corr_pairs : ∀ (abs : List (Option Nat × List SqlValue))
    (arrs : List Table), BucketCorr abs arrs →
    ∀ pr ∈ (arrs.map (fun a => a.columns.length)).zip abs,
      ∃ n vals, pr.2 = (some n, vals) ∧ vals.length = n * pr.1 := by
  intro abs
  induction abs with
  | nil =>
    intro arrs _ pr hpr
    simp [List.zip_nil_right] at hpr
  | cons b abs ih =>
    intro arrs hcorr pr hpr
    cases arrs with
    | nil => simp at hpr
    | cons t arrs =>
      simp only [List.map_cons, List.zip_cons_cons, List.mem_cons] at hpr
      rcases hpr with h | h
      · obtain ⟨n, vals, hb, hlen⟩ := hcorr.2 (b, t) (by simp)
        have hb' : b = (some n, vals) := hb
        have hlen' : vals.length = n * t.columns.length := hlen
        rw [h]
        exact ⟨n, vals, hb', hlen'⟩
      · apply ih arrs ?_ pr h
        constructor
        · have h1 := hcorr.1
          simp only [List.length_cons] at h1
          omega
        · intro q hq
          exact hcorr.2 q (by simp [hq])

/-- C5 (amended): for a valid log, the insert loop emits, for each
`(bucket, table)` pair in order, exactly one row for the primary bucket and
exactly `array_len` rows for an array bucket of element count `array_len`
(zero rows for an empty array, not `max(1, array_len)`); the four fixed
columns are identical on (and lead) every row of the log, and `array_index`
is the row's zero-based position within its bucket. -/
theorem store_event_row_emission (name : List Char) (event : EventDescriptor)
    (tables : Tables) (fields : List Value) (bn li ti : Nat) (addr : List Nat)
    (hplan : event_to_tables name event = .ok tables)
    (hwf : Value.wfList fields = true)
    (hkinds : Value.kindOfList fields = event.inputs.map (fun i => i.field.kind))
    (hcomps : ∀ i ∈ event.inputs, compsAlign i.field.kind i.field.components = true) :
    ∃ pv abs,
      buildBuckets fields = (none, pv) :: abs ∧
      (emitRows (insertFieldCounts tables) (fixedColumns bn li ti addr)
        (buildBuckets fields)).length = 1 + tables.dynamicArrays.length ∧
      (emitTableRows tables.primary.columns.length (fixedColumns bn li ti addr)
        (none, pv)).length = 1 ∧
      (∀ pr ∈ (tables.dynamicArrays.map (fun a => a.columns.length)).zip abs,
        ∃ n vals, pr.2 = (some n, vals) ∧
          (emitTableRows pr.1 (fixedColumns bn li ti addr) pr.2).length = n) ∧
      (∀ pr ∈ (insertFieldCounts tables).zip (buildBuckets fields),
        ∀ i, i < ((pr.2).1.getD 1) →
          (emitTableRows pr.1 (fixedColumns bn li ti addr) pr.2).get? i =
            some (fixedColumns bn li ti addr ++
              (if (pr.2).1.isSome then [SqlValue.integer (Int.ofNat i)] else []) ++
              (((pr.2).2.drop (i * pr.1)).take pr.1))) := by
  obtain ⟨pv, abs, hb, hpv, hcorr⟩ :=
    store_event_buckets name event tables fields hplan hwf hkinds hcomps
  refine ⟨pv, abs, hb, ?_, ?_, ?_, ?_⟩
  · unfold emitRows insertFieldCounts
    rw [hb]
    simp only [List.length_map, List.length_zip, List.length_cons]
    have h1 := hcorr.1
    omega
  · simp [emitTableRows]
  · intro pr hpr
    obtain ⟨n, vals, hp2, hlen⟩ := corr_pairs abs tables.dynamicArrays hcorr pr hpr
    refine ⟨n, vals, hp2, ?_⟩
    rw [hp2]
    simp [emitTableRows]
  · intro pr _ i hi
    unfold emitTableRows
    rw [List.get?_map]
    rw [List.get?_range hi]
    rfl

/-- C5 counterexample to the claim as stated: the event `Event(bool[])` with
one log whose array is empty.  The primary table receives one row, but the
array table receives zero rows, not `max(1, 0) = 1`. -/
theorem store_event_row_emission_counterexample :
    event_to_tables ['e', 'v', 't']
        (EventDescriptor.mk ['E'] [EventField.mk (Field.mk [] (.array .bool) []) false]) =
      .ok (Tables.mk (Table.mk ['e', 'v', 't'] [])
        [Table.mk ['e', 'v', 't', '_', 'a', 'r', 'r', 'a', 'y', '_', '0']
          [Column.mk .bool ['f', 'i', 'e', 'l', 'd', '_', '0']]]) ∧
    (emitRows (insertFieldCounts (Tables.mk (Table.mk ['e', 'v', 't'] [])
        [Table.mk ['e', 'v', 't', '_', 'a', 'r', 'r', 'a', 'y', '_', '0']
          [Column.mk .bool ['f', 'i', 'e', 'l', 'd', '_', '0']]]))
      (fixedColumns 1 2 3 [4])
      (buildBuckets [Value.array .bool []])).map List.length = [1, 0] ∧
    ¬ ((0 : Nat) = max 1 0) := by
  refine ⟨by decide, by decide, by decide⟩

/-- Witness for C5 at the no-input event `Event()`. -/
theorem store_event_row_emission_witness :
    ∃ pv abs,
      buildBuckets [] = ((none : Option Nat), pv) :: abs ∧
      (emitRows (insertFieldCounts (Tables.mk (Table.mk ['e', 'v', 't'] []) []))
        (fixedColumns 1 2 3 [4]) (buildBuckets [])).length =
        1 + (Tables.mk (Table.mk ['e', 'v', 't'] []) []).dynamicArrays.length ∧
      (emitTableRows (Tables.mk (Table.mk ['e', 'v', 't'] []) []).primary.columns.length
        (fixedColumns 1 2 3 [4]) (none, pv)).length = 1 ∧
      (∀ pr ∈ ((Tables.mk (Table.mk ['e', 'v', 't'] []) []).dynamicArrays.map
          (fun a => a.columns.length)).zip abs,
        ∃ n vals, pr.2 = (some n, vals) ∧
          (emitTableRows pr.1 (fixedColumns 1 2 3 [4]) pr.2).length = n) ∧
      (∀ pr ∈ (insertFieldCounts (Tables.mk (Table.mk ['e', 'v', 't'] []) [])).zip
          (buildBuckets []),
        ∀ i, i < ((pr.2).1.getD 1) →
          (emitTableRows pr.1 (fixedColumns 1 2 3 [4]) pr.2).get? i =
            some (fixedColumns 1 2 3 [4] ++
              (if (pr.2).1.isSome then [SqlValue.integer (Int.ofNat i)] else []) ++
              (((pr.2).2.drop (i * pr.1)).take pr.1))) :=
  store_event_row_emission ['e', 'v', 't'] (EventDescriptor.mk ['E'] [])
    (Tables.mk (Table.mk ['e', 'v', 't'] []) []) [] 1 2 3 [4]
    (by decide) (by decide) (by decide) (by decide)

/-! ## SQLite storage backend state machine (src/database/sqlite/mod.rs)

The persistent state is the set of user tables (rows keyed by insertion
order) and the reserved `_event_block` table; the in-memory state is the map
from event name to its prepared statements and descriptor.  Every operation
of the `Database` trait wraps its statements in one transaction: the model
runs the statement sequence as a pure fold over `DbState` in an error monad
and commits the new state only on success, returning the caller's state
unchanged on error (rusqlite rolls an uncommitted transaction back on
drop).  The `u64 → i64` checked conversions of the Rust code appear as
explicit `< 2^63` bound checks. -/

/-- A stored table row: the value of its `block_number` column (the first
bound parameter of every insert) and the remaining bound parameters. -/
structure Row where
  block : Nat
  rest : List SqlValue
  deriving DecidableEq, Repr

/-- Persistent database state: user tables (name to rows) and the reserved
`_event_block` table (event name to `(indexed, finalized)`). -/
structure DbState where
  tables : List (List Char × List Row)
  eventBlock : List (List Char × (Nat × Nat))
  deriving DecidableEq, Repr

/-- First-match association lookup (SQL primary-key read). -/
def assocGet : List (List Char × α) → List Char → Option α
  | [], _ => none
  | (k, v) :: rest, key => if k = key then some v else assocGet rest key

/-- First-match association update (SQL `UPDATE`): a no-op when the key is
absent (the statement then affects zero rows). -/
def assocUpdate : List (List Char × α) → List Char → (α → α) → List (List Char × α)
  | [], _, _ => []
  | (k, v) :: rest, key, f =>
      if k = key then (k, f v) :: rest else (k, v) :: assocUpdate rest key f

/-- A pre-prepared `INSERT` statement: its target table (standing for the
SQL text), whether it binds an `array_index` parameter, and the number of
event-field columns (`InsertStatement::fields`). -/
structure InsertStatement where
  table : List Char
  isArray : Bool
  fields : Nat
  deriving DecidableEq, Repr

/-- A prepared event (`PreparedEvent`): its descriptor, the per-table insert
statements, and the per-table `DELETE FROM t WHERE block_number >= ?1`
statements (represented by their table names). -/
structure PreparedEvent where
  descriptor : EventDescriptor
  insertStatements : List InsertStatement
  removeStatements : List (List Char)
  deriving DecidableEq, Repr

/-- The sqlite backend: the persistent state plus the in-memory
`name → PreparedEvent` map. -/
structure Sqlite where
  db : DbState
  events : List (List Char × PreparedEvent)
  deriving DecidableEq, Repr

/-- `CREATE TABLE IF NOT EXISTS`: append an empty table unless present. -/
def createTable (tables : List (List Char × List Row)) (name : List Char) :
    List (List Char × List Row) :=
  if (assocGet tables name).isSome then tables else tables ++ [(name, [])]

/-- Model of `SqliteInner::prepare_event` (with the enclosing transaction of
`Sqlite::prepare_event`): a repeated name returns early — `Ok` on an equal
descriptor, a signature-mismatch error otherwise, in both cases without
touching any state; a new name creates the tables (`IF NOT EXISTS`), upserts
the `(name, 0, 0)` watermark row without overwriting an existing one
(`ON CONFLICT(event) DO NOTHING`), and caches the prepared statements under
the primary table's name. -/
def Sqlite.prepare_event (s : Sqlite) (name : List Char)
    (event : EventDescriptor) : Sqlite × Except String Unit :=
  match assocGet s.events name with
  | some pe =>
      if event = pe.descriptor then (s, .ok ())
      else (s, .error "event already exists with different signature")
  | none =>
      match event_to_tables name event with
      | .error e => (s, .error e)
      | .ok tables =>
          let allTables := tables.primary :: tables.dynamicArrays
          let db1 : DbState :=
            { s.db with
              tables := allTables.foldl (fun acc t => createTable acc t.name) s.db.tables }
          let db2 : DbState :=
            { db1 with
              eventBlock :=
                if (assocGet db1.eventBlock tables.primary.name).isSome then
                  db1.eventBlock
                else db1.eventBlock ++ [(tables.primary.name, (0, 0))] }
          let inserts :=
            InsertStatement.mk tables.primary.name false tables.primary.columns.length ::
              tables.dynamicArrays.map (fun t => InsertStatement.mk t.name true t.columns.length)
          let removes := tables.primary.name :: tables.dynamicArrays.map (fun t => t.name)
          ({ db := db2,
             events := s.events ++ [(tables.primary.name,
               PreparedEvent.mk event inserts removes)] }, .ok ())

/-- Model of `SqliteInner::event_block`: read the watermark row, failing
like `query_row` when the event has none. -/
def Sqlite.event_block (s : Sqlite) (name : List Char) : Except String (Nat × Nat) :=
  match assocGet s.db.eventBlock name with
  | some b => .ok b
  | none => .error "query returned no rows"

/-- An emitted log as handed to `update` (`database::Log`). -/
structure Log where
  event : List Char
  block_number : Nat
  log_index : Nat
  transaction_index : Nat
  address : List Nat
  fields : List Value
  deriving DecidableEq, Repr

/-- Watermark update for one event (`database::EventBlock`). -/
structure EventBlock where
  event : List Char
  indexed : Nat
  finalized : Nat
  deriving DecidableEq, Repr

/-- An uncled block (`database::Uncle`). -/
structure Uncle where
  event : List Char
  number : Nat
  deriving DecidableEq, Repr

/-- Model of `SqliteInner::set_event_blocks`: for each `EventBlock`, require
the event to be prepared, convert the numbers to `i64`, execute the fixed
`UPDATE _event_block SET indexed = ?2, finalized = ?3 WHERE event = ?1` and
require it to affect exactly one row. -/
def setEventBlocks (events : List (List Char × PreparedEvent)) :
    DbState → List EventBlock → Except String DbState
  | db, [] => .ok db
  | db, b :: bs =>
      if assocGet events b.event = none then
        .error "event was not prepared"
      else if b.indexed ≥ 2 ^ 63 then
        .error "indexed out of bounds"
      else if b.finalized ≥ 2 ^ 63 then
        .error "finalized out of bounds"
      else if (assocGet db.eventBlock b.event).isSome then
        setEventBlocks events
          { db with eventBlock :=
              assocUpdate db.eventBlock b.event (fun _ => (b.indexed, b.finalized)) } bs
      else
        .error "query unexpectedly changed 0 rows instead of 1"

/-- Append rows to a table (executing a prepared insert; a no-op on a
missing table, which cannot happen for a prepared event). -/
def DbState.insertRows (db : DbState) (tname : List Char) (rows : List Row) : DbState :=
  { db with tables := assocUpdate db.tables tname (fun rs => rs ++ rows) }

/-- Model of `SqliteInner::store_event`: look up the prepared event,
validate the field count and each field's kind against the descriptor, build
the per-table buckets with the value visitor, and run the insert loop —
for each `(statement, bucket)` pair append the emitted rows to the
statement's table. -/
def storeEvent (events : List (List Char × PreparedEvent)) (db : DbState)
    (log : Log) : Except String DbState :=
  match assocGet events log.event with
  | none => .error "unknown event"
  | some pe =>
      if log.fields.length ≠ pe.descriptor.inputs.length then
        .error "event value has wrong number of fields"
      else if (log.fields.zip pe.descriptor.inputs).any
          (fun p => !(ValueKind.beq (Value.kindOf p.1) p.2.field.kind)) then
        .error "event field does not match event descriptor"
      else
        let fixed := fixedColumns log.block_number log.log_index
          log.transaction_index log.address
        let buckets := buildBuckets log.fields
        .ok ((pe.insertStatements.zip buckets).foldl
          (fun acc pr => acc.insertRows pr.1.table
            ((emitTableRows pr.1.fields fixed pr.2).map
              (fun r => Row.mk log.block_number r))) db)

/-- Store a list of logs in order. -/
def storeEvents (events : List (List Char × PreparedEvent)) :
    DbState → List Log → Except String DbState
  | db, [] => .ok db
  | db, log :: logs =>
      match storeEvent events db log with
      | .error e => .error e
      | .ok db1 => storeEvents events db1 logs

/-- The statement sequence of `SqliteInner::update`: the watermark updates,
then every log. -/
def updateInner (events : List (List Char × PreparedEvent)) (db : DbState)
    (blocks : List EventBlock) (logs : List Log) : Except String DbState :=
  match setEventBlocks events db blocks with
  | .error e => .error e
  | .ok db1 => storeEvents events db1 logs

/-- Model of `Sqlite::update`: run the statement sequence inside one
transaction; commit the new state on success, keep the old state on error
(the dropped transaction rolls back). -/
def Sqlite.update (s : Sqlite) (blocks : List EventBlock) (logs : List Log) :
    Sqlite × Except String Unit :=
  match updateInner s.events s.db blocks logs with
  | .ok db' => ({ s with db := db' }, .ok ())
  | .error e => (s, .error e)

/-- One `DELETE`-plus-`SET_INDEXED_BLOCK` step of `SqliteInner::remove`: the
Rust loop executes, for every remove statement of the uncled event's tables,
the `DELETE FROM t WHERE block_number >= ?1` followed by
`UPDATE _event_block SET indexed = ?2 WHERE event = ?1` with the uncle's
parent block. -/
def removeStatementStep (eventName : List Char) (number : Nat) (acc : DbState)
    (tname : List Char) : DbState :=
  DbState.mk
    (assocUpdate acc.tables tname
      (fun rows => rows.filter fun r => decide (r.block < number)))
    (assocUpdate acc.eventBlock eventName (fun b => (number - 1, b.2)))

/-- Model of `SqliteInner::remove`: reject an uncle at block 0 and a number
out of `i64` range, require the event to be prepared, and run every remove
statement of the event. -/
def removeInner (events : List (List Char × PreparedEvent)) :
    DbState → List Uncle → Except String DbState
  | db, [] => .ok db
  | db, u :: us =>
      if u.number = 0 then
        .error "block 0 got uncled"
      else if u.number ≥ 2 ^ 63 then
        .error "block out of bounds"
      else
        match assocGet events u.event with
        | none => .error "unprepared event"
        | some pe =>
            removeInner events
              (pe.removeStatements.foldl (removeStatementStep u.event u.number) db) us

/-- Model of `Sqlite::remove`: the statement sequence inside one
transaction. -/
def Sqlite.remove (s : Sqlite) (uncles : List Uncle) : Sqlite × Except String Unit :=
  match removeInner s.events s.db uncles with
  | .ok db' => ({ s with db := db' }, .ok ())
  | .error e => (s, .error e)

/-! ### Association-list lemmas -/

/-- Reading after an update: the updated key maps through `f`, every other
key is untouched (also with duplicate keys, since both operations act on the
first match). -/
theorem assocGet_update (l : List (List Char × α)) (k k' : List Char) (f : α → α) :
    assocGet (assocUpdate l k f) k' =
      if k' = k then Option.map f (assocGet l k) else assocGet l k' := by
  induction l with
  | nil => by_cases h : k' = k <;> simp [assocGet, assocUpdate, h]
  | cons p rest ih =>
    obtain ⟨a, v⟩ := p
    by_cases hak : a = k
    · subst hak
      by_cases hk : k' = a
      · subst hk; simp [assocGet, assocUpdate]
      · have hk2 : ¬ a = k' := fun h => hk h.symm
        simp [assocGet, assocUpdate, hk, hk2]
    · by_cases hk : a = k'
      · subst hk
        have hak2 : ¬ a = k := fun h => hak h
        simp [assocGet, assocUpdate, hak2, ih]
      · simp [assocGet, assocUpdate, hak, hk, ih]

/-- Appending a fresh key makes it readable. -/
theorem assocGet_append_self (l : List (List Char × α)) (k : List Char) (v : α)
    (h : assocGet l k = none) : assocGet (l ++ [(k, v)]) k = some v := by
  induction l with
  | nil => simp [assocGet]
  | cons p rest ih =>
    obtain ⟨a, w⟩ := p
    by_cases hak : a = k
    · simp [assocGet, hak] at h
    · simp only [assocGet, List.cons_append, if_neg hak] at h ⊢
      exact ih h

/-! ### `remove`: effect characterization and failure conditions -/

/-- The per-block row filter is idempotent. -/
theorem filter_block_idem (n : Nat) (x : Option (List Row)) :
    Option.map (fun rows => rows.filter fun r => decide (r.block < n))
      (Option.map (fun rows => rows.filter fun r => decide (r.block < n)) x) =
    Option.map (fun rows => rows.filter fun r => decide (r.block < n)) x := by
  cases x with
  | none => rfl
  | some rows =>
    simp only [Option.map_some']
    congr 1
    induction rows with
    | nil => rfl
    | cons r rs ih =>
      by_cases h : r.block < n
      · simp [List.filter_cons, h, ih]
      · simp [List.filter_cons, h, ih]

/-- Setting the indexed watermark is idempotent. -/
theorem watermark_set_idem (n : Nat) (x : Option (Nat × Nat)) :
    Option.map (fun b : Nat × Nat => (n - 1, b.2))
      (Option.map (fun b : Nat × Nat => (n - 1, b.2)) x) =
    Option.map (fun b : Nat × Nat => (n - 1, b.2)) x := by
  cases x <;> rfl

/-- Effect of running the remove statements of one uncle `(E, n)` over a
statement list `ns`: every table named in `ns` keeps exactly its rows below
block `n` (in order), every other table is untouched, and — as soon as at
least one statement runs — the watermark row of `E` has its `indexed`
component set to `n - 1` with `finalized` unchanged. -/
theorem remove_fold_char (E : List Char) (n : Nat) :
    ∀ (ns : List (List Char)) (db : DbState),
    (∀ t, assocGet (ns.foldl (removeStatementStep E n) db).tables t =
        (if t ∈ ns then
          Option.map (fun rows => rows.filter fun r => decide (r.block < n))
            (assocGet db.tables t)
        else assocGet db.tables t)) ∧
    (∀ t, assocGet (ns.foldl (removeStatementStep E n) db).eventBlock t =
        (if ns ≠ [] ∧ t = E then
          Option.map (fun b => (n - 1, b.2)) (assocGet db.eventBlock t)
        else assocGet db.eventBlock t)) := by
  intro ns
  induction ns with
  | nil => intro db; constructor <;> intro t <;> simp
  | cons m ms ih =>
    intro db
    have hstep_t : ∀ t, assocGet (removeStatementStep E n db m).tables t =
        (if t = m then
          Option.map (fun rows => rows.filter fun r => decide (r.block < n))
            (assocGet db.tables t)
        else assocGet db.tables t) := by
      intro t
      simp only [removeStatementStep]
      rw [assocGet_update]
      by_cases ht : t = m
      · subst ht; simp
      · simp [ht]
    have hstep_e : ∀ t, assocGet (removeStatementStep E n db m).eventBlock t =
        (if t = E then
          Option.map (fun b => (n - 1, b.2)) (assocGet db.eventBlock t)
        else assocGet db.eventBlock t) := by
      intro t
      simp only [removeStatementStep]
      rw [assocGet_update]
      by_cases ht : t = E
      · subst ht; simp
      · simp [ht]
    constructor
    · intro t
      rw [List.foldl_cons, (ih (removeStatementStep E n db m)).1 t, hstep_t t]
      by_cases htm : t = m
      · subst htm
        by_cases htms : t ∈ ms
        · rw [if_pos htms, if_pos rfl, if_pos (List.mem_cons_self t ms),
            filter_block_idem]
        · rw [if_neg htms, if_pos rfl, if_pos (List.mem_cons_self t ms)]
      · by_cases htms : t ∈ ms
        · rw [if_pos htms, if_neg htm, if_pos (List.mem_cons_of_mem m htms)]
        · rw [if_neg htms, if_neg htm,
            if_neg (fun hmem => (List.mem_cons.mp hmem).elim htm htms)]
    · intro t
      rw [List.foldl_cons, (ih (removeStatementStep E n db m)).2 t, hstep_e t]
      by_cases hte : t = E
      · subst hte
        by_cases hms : ms = []
        · subst hms
          rw [if_neg (by simp), if_pos rfl, if_pos ⟨List.cons_ne_nil m [], rfl⟩]
        · rw [if_pos ⟨hms, rfl⟩, if_pos rfl, if_pos ⟨List.cons_ne_nil m ms, rfl⟩,
            watermark_set_idem]
      · rw [if_neg (fun hand => hte hand.2), if_neg hte,
          if_neg (fun hand => hte hand.2)]

/-- A single in-range uncle of a prepared event runs exactly its remove
statements. -/
theorem removeInner_single (events : List (List Char × PreparedEvent))
    (db : DbState) (E : List Char) (n : Nat) (pe : PreparedEvent)
    (hpe : assocGet events E = some pe) (h0 : n ≠ 0) (hb : n < 2 ^ 63) :
    removeInner events db [Uncle.mk E n] =
      Except.ok (pe.removeStatements.foldl (removeStatementStep E n) db) := by
  have hb' : ¬ n ≥ 2 ^ 63 := by omega
  simp only [removeInner, if_neg h0, if_neg hb', hpe]

/-- `remove` runs into an error as soon as some uncle is at block 0 or names
an unprepared event (whatever the database state at that point). -/
theorem removeInner_fails (events : List (List Char × PreparedEvent)) :
    ∀ (us : List Uncle) (db : DbState),
    (∃ u ∈ us, u.number = 0 ∨ assocGet events u.event = none) →
    ∃ e, removeInner events db us = Except.error e := by
  intro us
  induction us with
  | nil =>
    intro db h
    obtain ⟨u, hu, _⟩ := h
    exact absurd hu (List.not_mem_nil u)
  | cons u us ih =>
    intro db h
    by_cases h0 : u.number = 0
    · exact ⟨"block 0 got uncled", by simp only [removeInner, if_pos h0]⟩
    by_cases hb : u.number ≥ 2 ^ 63
    · exact ⟨"block out of bounds", by simp only [removeInner, if_neg h0, if_pos hb]⟩
    cases hget : assocGet events u.event with
    | none =>
      exact ⟨"unprepared event", by simp only [removeInner, if_neg h0, if_neg hb, hget]⟩
    | some pe =>
      obtain ⟨u', hu', hbad⟩ := h
      rcases List.mem_cons.mp hu' with rfl | hmem
      · rcases hbad with h0' | hnone
        · exact absurd h0' h0
        · rw [hget] at hnone
          exact absurd hnone (by simp)
      · obtain ⟨e, he⟩ := ih
          (pe.removeStatements.foldl (removeStatementStep u.event u.number) db)
          ⟨u', hmem, hbad⟩
        exact ⟨e, by simp only [removeInner, if_neg h0, if_neg hb, hget]; exact he⟩

set_option maxHeartbeats 1000000 in
/-- C2: for a prepared event `E` and a successful `remove([{E, n}])`, every
table of `E` (the targets of its remove statements: the primary table and
its array tables) retains exactly its rows with `block_number < n`, in their
original order — so zero rows with `block_number ≥ n` remain and the rows
below `n` are unchanged — every other table is untouched, the `indexed`
watermark of `E` becomes `n - 1` while its `finalized` watermark is
unchanged; and `remove` fails whenever some uncle has `number = 0` or names
an unprepared event. -/
theorem remove_spec (s : Sqlite) (E : List Char) (n : Nat) (pe : PreparedEvent)
    (hpe : assocGet s.events E = some pe)
    (hrs : pe.removeStatements ≠ [])
    (hsucc : (s.remove [Uncle.mk E n]).2 = Except.ok ()) :
    ((∀ t ∈ pe.removeStatements,
        assocGet (s.remove [Uncle.mk E n]).1.db.tables t =
          Option.map (fun rows => rows.filter fun r => decide (r.block < n))
            (assocGet s.db.tables t)) ∧
      (∀ t, t ∉ pe.removeStatements →
        assocGet (s.remove [Uncle.mk E n]).1.db.tables t = assocGet s.db.tables t) ∧
      assocGet (s.remove [Uncle.mk E n]).1.db.eventBlock E =
        Option.map (fun b => (n - 1, b.2)) (assocGet s.db.eventBlock E)) ∧
    (∀ uncles : List Uncle,
      (∃ u ∈ uncles, u.number = 0 ∨ assocGet s.events u.event = none) →
      ∃ e, (s.remove uncles).2 = Except.error e) := by
  have h0 : n ≠ 0 := by
    intro hn
    simp [Sqlite.remove, removeInner, hn] at hsucc
  have hb : n < 2 ^ 63 := by
    by_contra hn
    have hge : (9223372036854775808 : Nat) ≤ n := by omega
    simp [Sqlite.remove, removeInner, h0, hge] at hsucc
  have hrem : s.remove [Uncle.mk E n] =
      ({ s with db := pe.removeStatements.foldl (removeStatementStep E n) s.db },
        Except.ok ()) := by
    simp only [Sqlite.remove, removeInner_single s.events s.db E n pe hpe h0 hb]
  obtain ⟨hchar_t, hchar_e⟩ := remove_fold_char E n pe.removeStatements s.db
  refine ⟨⟨?_, ?_, ?_⟩, ?_⟩
  · intro t ht
    rw [hrem]
    have hc := hchar_t t
    rw [if_pos ht] at hc
    exact hc
  · intro t ht
    rw [hrem]
    have hc := hchar_t t
    rw [if_neg ht] at hc
    exact hc
  · rw [hrem]
    have hc := hchar_e E
    rw [if_pos ⟨hrs, rfl⟩] at hc
    exact hc
  · intro uncles hbad
    obtain ⟨e, he⟩ := removeInner_fails s.events uncles s.db hbad
    exact ⟨e, by simp only [Sqlite.remove, he]⟩

/-- Concrete instance of the `remove` characterization: a prepared event
`"e"` with rows at blocks 3 and 7 and watermark `(9, 2)`; uncling block 5
keeps only the block-3 row and sets the watermark to `(4, 2)`, and uncling
block 0 fails. -/
theorem remove_spec_witness :
    assocGet (Sqlite.remove
        (Sqlite.mk
          (DbState.mk [(['e'], [Row.mk 3 [], Row.mk 7 []])] [(['e'], (9, 2))])
          [(['e'], PreparedEvent.mk (EventDescriptor.mk ['E'] [])
            [InsertStatement.mk ['e'] false 0] [['e']])])
        [Uncle.mk ['e'] 5]).1.db.tables ['e'] = some [Row.mk 3 []] ∧
    assocGet (Sqlite.remove
        (Sqlite.mk
          (DbState.mk [(['e'], [Row.mk 3 [], Row.mk 7 []])] [(['e'], (9, 2))])
          [(['e'], PreparedEvent.mk (EventDescriptor.mk ['E'] [])
            [InsertStatement.mk ['e'] false 0] [['e']])])
        [Uncle.mk ['e'] 5]).1.db.eventBlock ['e'] = some (4, 2) ∧
    (∃ e, (Sqlite.remove
        (Sqlite.mk
          (DbState.mk [(['e'], [Row.mk 3 [], Row.mk 7 []])] [(['e'], (9, 2))])
          [(['e'], PreparedEvent.mk (EventDescriptor.mk ['E'] [])
            [InsertStatement.mk ['e'] false 0] [['e']])])
        [Uncle.mk ['z'] 0]).2 = Except.error e) := by
  have h := remove_spec
    (Sqlite.mk
      (DbState.mk [(['e'], [Row.mk 3 [], Row.mk 7 []])] [(['e'], (9, 2))])
      [(['e'], PreparedEvent.mk (EventDescriptor.mk ['E'] [])
        [InsertStatement.mk ['e'] false 0] [['e']])])
    ['e'] 5
    (PreparedEvent.mk (EventDescriptor.mk ['E'] [])
      [InsertStatement.mk ['e'] false 0] [['e']])
    (by decide) (by decide) (by decide)
  refine ⟨?_, ?_, ?_⟩
  · rw [h.1.1 ['e'] (by decide)]
    decide
  · rw [h.1.2.2]
    decide
  · exact h.2 [Uncle.mk ['z'] 0] ⟨Uncle.mk ['z'] 0, by decide, Or.inl rfl⟩

/-! ### `update`: failure conditions and transactional atomicity -/

/-- The validation predicate of `store_event` on one log: the event is not
in the prepared map, or the field count differs from the descriptor's input
count, or some field's kind differs from the corresponding input kind. -/
def logMismatch (events : List (List Char × PreparedEvent)) (log : Log) : Bool :=
  match assocGet events log.event with
  | none => true
  | some pe =>
      decide (log.fields.length ≠ pe.descriptor.inputs.length) ||
      (log.fields.zip pe.descriptor.inputs).any
        (fun p => !(ValueKind.beq (Value.kindOf p.1) p.2.field.kind))

/-- `store_event` rejects a mismatching log whatever the database state. -/
theorem storeEvent_fails (events : List (List Char × PreparedEvent)) (db : DbState)
    (log : Log) (h : logMismatch events log = true) :
    ∃ e, storeEvent events db log = Except.error e := by
  unfold logMismatch at h
  cases hget : assocGet events log.event with
  | none =>
    exact ⟨"unknown event", by simp only [storeEvent, hget]⟩
  | some pe =>
    rw [hget] at h
    simp only [Bool.or_eq_true, decide_eq_true_eq] at h
    by_cases hlen : log.fields.length ≠ pe.descriptor.inputs.length
    · exact ⟨"event value has wrong number of fields",
        by simp only [storeEvent, hget, if_pos hlen]⟩
    · have hany : (log.fields.zip pe.descriptor.inputs).any
          (fun p => !(ValueKind.beq (Value.kindOf p.1) p.2.field.kind)) = true := by
        rcases h with h | h
        · exact absurd h hlen
        · exact h
      exact ⟨"event field does not match event descriptor",
        by simp only [storeEvent, hget, if_neg hlen, hany, if_pos rfl, if_true]⟩

/-- A log sequence containing a mismatching log makes `store_event` fail at
or before that log, whatever the database state. -/
theorem storeEvents_fails (events : List (List Char × PreparedEvent)) :
    ∀ (logs : List Log) (db : DbState),
    (∃ l ∈ logs, logMismatch events l = true) →
    ∃ e, storeEvents events db logs = Except.error e := by
  intro logs
  induction logs with
  | nil =>
    intro db h
    obtain ⟨l, hl, _⟩ := h
    exact absurd hl (List.not_mem_nil l)
  | cons l ls ih =>
    intro db h
    cases hse : storeEvent events db l with
    | error e => exact ⟨e, by simp only [storeEvents, hse]⟩
    | ok db1 =>
      obtain ⟨l', hl', hbad⟩ := h
      rcases List.mem_cons.mp hl' with rfl | hmem
      · obtain ⟨e, he⟩ := storeEvent_fails events db l' hbad
        rw [hse] at he
        exact absurd he (by simp)
      · obtain ⟨e, he⟩ := ih db1 ⟨l', hmem, hbad⟩
        exact ⟨e, by simp only [storeEvents, hse]; exact he⟩

/-- The watermark updates change values, never keys: a key absent before a
`setEventBlocks` step is absent after it, and conversely. -/
theorem setEventBlocks_fails (events : List (List Char × PreparedEvent)) :
    ∀ (blocks : List EventBlock) (db : DbState),
    (∃ b ∈ blocks, assocGet events b.event = none ∨
      assocGet db.eventBlock b.event = none) →
    ∃ e, setEventBlocks events db blocks = Except.error e := by
  intro blocks
  induction blocks with
  | nil =>
    intro db h
    obtain ⟨b, hb, _⟩ := h
    exact absurd hb (List.not_mem_nil b)
  | cons b bs ih =>
    intro db h
    by_cases hget : assocGet events b.event = none
    · exact ⟨"event was not prepared", by simp only [setEventBlocks, if_pos hget]⟩
    by_cases hi : b.indexed ≥ 2 ^ 63
    · exact ⟨"indexed out of bounds",
        by simp only [setEventBlocks, if_neg hget, if_pos hi]⟩
    by_cases hf : b.finalized ≥ 2 ^ 63
    · exact ⟨"finalized out of bounds",
        by simp only [setEventBlocks, if_neg hget, if_neg hi, if_pos hf]⟩
    cases hrow : assocGet db.eventBlock b.event with
    | none =>
      refine ⟨"query unexpectedly changed 0 rows instead of 1", ?_⟩
      simp only [setEventBlocks, if_neg hget, if_neg hi, if_neg hf, hrow,
        Option.isSome_none, Bool.false_eq_true, if_false]
    | some w =>
      obtain ⟨b', hb', hbad⟩ := h
      rcases List.mem_cons.mp hb' with rfl | hmem
      · rcases hbad with hnone | hnone
        · exact absurd hnone hget
        · rw [hrow] at hnone
          exact absurd hnone (by simp)
      · have hbad1 : assocGet events b'.event = none ∨
            assocGet (DbState.mk db.tables
              (assocUpdate db.eventBlock b.event
                (fun _ => (b.indexed, b.finalized)))).eventBlock b'.event = none := by
          rcases hbad with hnone | hnone
          · exact Or.inl hnone
          · refine Or.inr ?_
            show assocGet (assocUpdate db.eventBlock b.event
              (fun _ => (b.indexed, b.finalized))) b'.event = none
            rw [assocGet_update]
            by_cases hbb : b'.event = b.event
            · exfalso
              rw [hbb] at hnone
              rw [hnone] at hrow
              simp at hrow
            · rw [if_neg hbb]
              exact hnone
        obtain ⟨e, he⟩ := ih
          (DbState.mk db.tables
            (assocUpdate db.eventBlock b.event (fun _ => (b.indexed, b.finalized))))
          ⟨b', hmem, hbad1⟩
        refine ⟨e, ?_⟩
        simp only [setEventBlocks, if_neg hget, if_neg hi, if_neg hf, hrow,
          Option.isSome_some, if_true]
        exact he

set_option maxHeartbeats 1000000 in
/-- C3: `update(blocks, logs)` fails when some `EventBlock` names an event
that is unprepared or has no watermark row (so the fixed watermark update
affects zero rows instead of one), or when some `Log` names an unprepared
event, carries a field count different from its descriptor's input count, or
carries a field whose kind differs from the corresponding input kind; and
whenever `update` fails the persistent state — every table and every
watermark — is exactly as before the call. -/
theorem update_spec (s : Sqlite) (blocks : List EventBlock) (logs : List Log) :
    (((∃ b ∈ blocks, assocGet s.events b.event = none ∨
        assocGet s.db.eventBlock b.event = none) ∨
      (∃ l ∈ logs, logMismatch s.events l = true)) →
      ∃ e, (s.update blocks logs).2 = Except.error e) ∧
    (∀ e, (s.update blocks logs).2 = Except.error e → (s.update blocks logs).1 = s) := by
  constructor
  · intro hbad
    rcases hbad with hbad | hbad
    · obtain ⟨e, he⟩ := setEventBlocks_fails s.events blocks s.db hbad
      exact ⟨e, by simp only [Sqlite.update, updateInner, he]⟩
    · cases hsb : setEventBlocks s.events s.db blocks with
      | error e => exact ⟨e, by simp only [Sqlite.update, updateInner, hsb]⟩
      | ok db1 =>
        obtain ⟨e, he⟩ := storeEvents_fails s.events logs db1 hbad
        refine ⟨e, ?_⟩
        simp only [Sqlite.update, updateInner, hsb]
        rw [he]
  · intro e he
    cases hui : updateInner s.events s.db blocks logs with
    | ok db' =>
      rw [show (s.update blocks logs).2 = Except.ok () from
        by simp only [Sqlite.update, hui]] at he
      exact absurd he (by simp)
    | error e' => simp only [Sqlite.update, hui]

/-- Concrete instance: updating the watermark of an unprepared event on an
empty backend fails and leaves the state unchanged. -/
theorem update_spec_witness :
    (∃ e, (Sqlite.update (Sqlite.mk (DbState.mk [] []) [])
        [EventBlock.mk ['e'] 1 1] []).2 = Except.error e) ∧
    (Sqlite.update (Sqlite.mk (DbState.mk [] []) []) [EventBlock.mk ['e'] 1 1] []).1 =
      Sqlite.mk (DbState.mk [] []) [] := by
  have h := update_spec (Sqlite.mk (DbState.mk [] []) []) [EventBlock.mk ['e'] 1 1] []
  have hfail := h.1 (Or.inl ⟨EventBlock.mk ['e'] 1 1, by decide, Or.inl rfl⟩)
  obtain ⟨e, he⟩ := hfail
  exact ⟨⟨e, he⟩, h.2 e he⟩

/-! ### `prepare_event`: idempotence and signature mismatch -/

/-- Every step of the schema visitor keeps the primary table's name. -/
theorem handleTok_primary_name (en : List Char) (p : Table) (arrs : List Table)
    (dyn : Option Nat) (tok : VisitKind) :
    ((handleTok en (p, arrs, dyn) tok).1).name = p.name := by
  cases tok with
  | arrayStart nm => rfl
  | arrayEnd => rfl
  | tupleStart nm => rfl
  | tupleEnd => rfl
  | fixedArrayStart n nm => rfl
  | fixedArrayEnd => rfl
  | leaf k nm => cases dyn <;> simp [handleTok, appendLeaf]

/-- Folding the schema visitor preserves the primary table's name. -/
theorem foldTok_primary_name (en : List Char) :
    ∀ (toks : List VisitKind) (st : Table × List Table × Option Nat),
    ((toks.foldl (handleTok en) st).1).name = st.1.name := by
  intro toks
  induction toks with
  | nil => intro st; rfl
  | cons t ts ih =>
    intro st
    rw [List.foldl_cons, ih]
    obtain ⟨p, arrs, dyn⟩ := st
    exact handleTok_primary_name en p arrs dyn t

/-- `handle_field_simple_names` preserves the primary table's name. -/
theorem handleField_primary_name (en : List Char) (p : Table) (arrs : List Table)
    (f : Field) : ((handleField en p arrs f).1).name = p.name :=
  foldTok_primary_name en (visitField f) (p, arrs, none)

/-- The planner's fold over the inputs preserves the primary table's name. -/
theorem eventFold_primary_name (name : List Char) :
    ∀ (inputs : List EventField) (acc : Table × List Table),
    ((inputs.foldl
      (fun (acc : Table × List Table) input => handleField name acc.1 acc.2 input.field)
      acc).1).name = acc.1.name := by
  intro inputs
  induction inputs with
  | nil => intro acc; rfl
  | cons i is ih =>
    intro acc
    rw [List.foldl_cons, ih]
    exact handleField_primary_name name acc.1 acc.2 i.field

/-- A successful plan names the primary table after the event. -/
theorem event_to_tables_primary_name (name : List Char) (event : EventDescriptor)
    (tables : Tables) (h : event_to_tables name event = Except.ok tables) :
    tables.primary.name = name := by
  unfold event_to_tables at h
  split at h
  · exact absurd h (by simp)
  split at h
  · exact absurd h (by simp)
  split at h
  · exact absurd h (by simp)
  · simp only [Except.ok.injEq] at h
    rw [← h]
    exact eventFold_primary_name name event.inputs
      ({ name := name, columns := [] }, [])

set_option maxHeartbeats 1000000 in
/-- C7: when `prepare_event(name, d)` succeeds, a second call with the same
name and descriptor returns `Ok` and is a complete no-op — no table is
created or changed, the watermark row keeps its existing values, and the
prepared-event cache is unchanged — while a second call with the same name
and a different descriptor fails with the signature-mismatch error and also
changes nothing. -/
theorem prepare_event_idempotent (s s₁ : Sqlite) (name : List Char)
    (d : EventDescriptor) (h : s.prepare_event name d = (s₁, Except.ok ())) :
    s₁.prepare_event name d = (s₁, Except.ok ()) ∧
    (∀ d', d' ≠ d → ∃ e, s₁.prepare_event name d' = (s₁, Except.error e)) := by
  cases hget : assocGet s.events name with
  | some pe =>
    by_cases hd : d = pe.descriptor
    · have hs : s₁ = s := by
        simp only [Sqlite.prepare_event, hget, if_pos hd] at h
        exact (congrArg Prod.fst h).symm
      subst hs
      constructor
      · simp only [Sqlite.prepare_event, hget, if_pos hd]
      · intro d' hd'
        have hd'' : ¬ d' = pe.descriptor := fun hc => hd' (hc.trans hd.symm)
        exact ⟨"event already exists with different signature",
          by simp only [Sqlite.prepare_event, hget, if_neg hd'']⟩
    · simp only [Sqlite.prepare_event, hget, if_neg hd] at h
      exact absurd (congrArg Prod.snd h) (by simp)
  | none =>
    cases hplan : event_to_tables name d with
    | error e =>
      simp only [Sqlite.prepare_event, hget, hplan] at h
      exact absurd (congrArg Prod.snd h) (by simp)
    | ok tables =>
      have hpname : tables.primary.name = name :=
        event_to_tables_primary_name name d tables hplan
      simp only [Sqlite.prepare_event, hget, hplan] at h
      have hev : s.events ++ [(tables.primary.name, PreparedEvent.mk d
          (InsertStatement.mk tables.primary.name false tables.primary.columns.length ::
            tables.dynamicArrays.map (fun t => InsertStatement.mk t.name true t.columns.length))
          (tables.primary.name :: tables.dynamicArrays.map (fun t => t.name)))] =
          s₁.events :=
        congrArg (fun q : Sqlite × Except String Unit => q.1.events) h
      have hget1 : assocGet s₁.events name = some (PreparedEvent.mk d
          (InsertStatement.mk tables.primary.name false tables.primary.columns.length ::
            tables.dynamicArrays.map (fun t => InsertStatement.mk t.name true t.columns.length))
          (tables.primary.name :: tables.dynamicArrays.map (fun t => t.name))) := by
        rw [← hev, hpname]
        exact assocGet_append_self s.events name _ hget
      constructor
      · simp [Sqlite.prepare_event, hget1]
      · intro d' hd'
        refine ⟨"event already exists with different signature", ?_⟩
        simp only [Sqlite.prepare_event, hget1]
        split
        · next heq => exact absurd heq hd'
        · rfl

set_option maxRecDepth 8000 in
/-- Concrete instance: preparing `"e"` on an empty backend succeeds; a
repeated call with the same descriptor returns the state unchanged, and a
call with a different descriptor fails. -/
theorem prepare_event_idempotent_witness :
    Sqlite.prepare_event
        (Sqlite.mk
          (DbState.mk [(['e'], [])] [(['e'], (0, 0))])
          [(['e'], PreparedEvent.mk (EventDescriptor.mk ['E'] [])
            [InsertStatement.mk ['e'] false 0] [['e']])])
        ['e'] (EventDescriptor.mk ['E'] []) =
      ((Sqlite.mk
          (DbState.mk [(['e'], [])] [(['e'], (0, 0))])
          [(['e'], PreparedEvent.mk (EventDescriptor.mk ['E'] [])
            [InsertStatement.mk ['e'] false 0] [['e']])]), Except.ok ()) ∧
    (∃ e, Sqlite.prepare_event
        (Sqlite.mk
          (DbState.mk [(['e'], [])] [(['e'], (0, 0))])
          [(['e'], PreparedEvent.mk (EventDescriptor.mk ['E'] [])
            [InsertStatement.mk ['e'] false 0] [['e']])])
        ['e'] (EventDescriptor.mk ['F'] []) =
      ((Sqlite.mk
          (DbState.mk [(['e'], [])] [(['e'], (0, 0))])
          [(['e'], PreparedEvent.mk (EventDescriptor.mk ['E'] [])
            [InsertStatement.mk ['e'] false 0] [['e']])]), Except.error e)) := by
  have h := prepare_event_idempotent
    (Sqlite.mk (DbState.mk [] []) [])
    (Sqlite.mk
      (DbState.mk [(['e'], [])] [(['e'], (0, 0))])
      [(['e'], PreparedEvent.mk (EventDescriptor.mk ['E'] [])
        [InsertStatement.mk ['e'] false 0] [['e']])])
    ['e'] (EventDescriptor.mk ['E'] []) (by decide)
  exact ⟨h.1, h.2 (EventDescriptor.mk ['F'] []) (by decide)⟩

end Arak
